import Mathlib

/-!
Verification development for the qdl-diamond sequencer core.

The Python sources under `src/qdlutils` are shallowly embedded below:
pure computations become Lean functions over `Nat`/`Int`/`ℚ` and lists,
Python dicts become insertion-ordered association lists, fallible code
returns `Except PyErr`, and numpy `uint32` arithmetic is modelled as
natural-number arithmetic modulo `2 ^ 32`.
-/

set_option autoImplicit false

namespace QdlUtils

/-- Python exception outcomes reachable in the modelled code paths. -/
inductive PyErr where
  | typeError
  | keyError (key : String)
  | valueError (msg : String)
  | indexError
  | runtimeError (msg : String)
  deriving Repr, DecidableEq

/-- Result of a Python computation: either a value or a raised exception. -/
abbrev Py (α : Type) := Except PyErr α

/-- Insertion-ordered association list, modelling a Python `dict[str, α]`
(Python dicts preserve insertion order, which the sequencer code relies on). -/
abbrev Dict (α : Type) := List (String × α)

namespace Dict

/-- Lookup of a key, `None` when absent. -/
def find? {α : Type} : Dict α → String → Option α
  | [], _ => none
  | (k', v) :: rest, k => if k' = k then some v else find? rest k

/-- The keys of the dict, in insertion order. -/
def keysList {α : Type} (d : Dict α) : List String := d.map Prod.fst

/-- Python `k in d`. -/
def hasKey {α : Type} (d : Dict α) (k : String) : Bool := (find? d k).isSome

/-- Python dict item assignment `d[k] = v`: an existing key is updated in
place, a new key is appended at the end. -/
def setItem {α : Type} : Dict α → String → α → Dict α
  | [], k, v => [(k, v)]
  | (k', v') :: rest, k, v =>
    if k' = k then (k', v) :: rest else (k', v') :: setItem rest k v

/-- Python in-place dict merge `d |= e`. -/
def unionUpdate {α : Type} (d e : Dict α) : Dict α :=
  e.foldl (fun acc kv => setItem acc kv.1 kv.2) d

/-- Python subscription `d[k]`: raises `KeyError` when the key is absent. -/
def getItem {α : Type} (d : Dict α) (k : String) : Py α :=
  match find? d k with
  | some v => .ok v
  | none => .error (.keyError k)

theorem find?_mapSelf {α : Type} (f : String → α) (l : List String) (k : String)
    (h : k ∈ l) : find? (l.map (fun s => (s, f s))) k = some (f k) := by
  induction l with
  | nil => cases h
  | cons a rest ih =>
    simp only [List.map_cons, find?]
    by_cases hak : a = k
    · subst hak; simp
    · have : k ∈ rest := by
        cases h with
        | head => exact absurd rfl hak
        | tail _ h' => exact h'
      simp [hak, ih this]

theorem getItem_eq_ok {α : Type} (d : Dict α) (k : String) (v : α)
    (h : find? d k = some v) : getItem d k = .ok v := by
  simp [getItem, h]

end Dict

/-- The numpy `uint32` wraparound modulus, `2 ^ 32`. -/
def U32 : Nat := 4294967296

theorem U32_eq_pow : U32 = 2 ^ 32 := by norm_num [U32]

/-- Cast of a natural number into numpy `uint32`. -/
def toU32 (x : Nat) : Nat := x % U32

/-- numpy `uint32` subtraction `a - b`, with wraparound. -/
def u32sub (a b : Nat) : Nat := (a % U32 + (U32 - b % U32)) % U32

theorem u32sub_self (a : Nat) : u32sub a a = 0 := by
  simp only [u32sub, U32]
  omega

theorem u32sub_eq_sub (a b : Nat) (hba : b ≤ a) (ha : a < U32) :
    u32sub a b = a - b := by
  simp only [u32sub, U32] at *
  omega

theorem toU32_eq_self (x : Nat) (h : x < U32) : toU32 x = x := by
  simp only [toU32, U32] at *
  omega

/-- Python slice `l[a : b]` for `0 ≤ a ≤ b` (clips at the list's length). -/
def pySlice {α : Type} (l : List α) (a b : Nat) : List α := (l.take b).drop a

theorem pySlice_length {α : Type} (l : List α) (a b : Nat)
    (hb : b ≤ l.length) (hab : a ≤ b) : (pySlice l a b).length = b - a := by
  simp [pySlice, List.length_drop, List.length_take]
  omega

theorem pySlice_getD {α : Type} (l : List α) (a b i : Nat) (dflt : α)
    (hi : a + i < b) (hb : b ≤ l.length) :
    (pySlice l a b).getD i dflt = l.getD (a + i) dflt := by
  simp only [pySlice, List.getD_eq_getElem?_getD, List.getElem?_drop]
  congr 1
  rw [List.getElem?_take]
  simp [hi]

theorem rangeMap_getD {α : Type} (f : Nat → α) (n i : Nat) (dflt : α)
    (h : i < n) : (((List.range n).map f).getD i dflt) = f i := by
  simp only [List.getD_eq_getElem?_getD, List.getElem?_map, List.getElem?_range h]
  rfl

theorem rangeMap_length {α : Type} (f : Nat → α) (n : Nat) :
    ((List.range n).map f).length = n := by simp

/-- numpy `np.max` over a list of naturals (the sequencer only applies it to
nonempty lists, where this fold agrees with `np.max`; numpy raises on an
empty input). -/
def listMaxNat (l : List Nat) : Nat := l.foldl Nat.max 0

theorem foldl_max_le_aux (l : List Nat) (b : Nat) : b ≤ l.foldl Nat.max b := by
  induction l generalizing b with
  | nil => exact le_refl b
  | cons a rest ih =>
    exact le_trans (Nat.le_max_left b a) (ih (Nat.max b a))

theorem listMaxNat_le_of_mem (l : List Nat) (x : Nat) (h : x ∈ l) :
    x ≤ listMaxNat l := by
  suffices H : ∀ b : Nat, x ≤ l.foldl Nat.max b from H 0
  induction l with
  | nil => cases h
  | cons a rest ih =>
    intro b
    cases h with
    | head =>
      exact le_trans (Nat.le_max_right b x) (foldl_max_le_aux rest (Nat.max b x))
    | tail _ h' =>
      exact ih h' (Nat.max b a)

theorem mapGetD {α β : Type} (f : α → β) (l : List α) (i : Nat) (da : α) (db : β)
    (h : i < l.length) : (l.map f).getD i db = f (l.getD i da) := by
  simp [List.getD_eq_getElem?_getD, List.getElem?_map, List.getElem?_eq_getElem h,
    List.getD_eq_getElem l da h]

/-!
## Edge-counter input groups

Embeddings of `NidaqSequencerCIEdgeGroup` and `NidaqSequencerCIEdgeRateGroup`
(`src/qdlutils/hardware/nidaq/synchronous/nidaqsequencerinputgroup.py`).
The per-source sample counts and readout delays are total functions on the
group's source names: the sequencer's parameter parsing guarantees every
source has an entry before `build` runs, so the dictionary lookups inside
`build`/`readout` cannot fail.  The hardware stream reader is abstracted as
`raw : String → Nat → Nat`, giving the cumulative rising-edge count each
source's counter reports at each clock cycle.
-/

/-- Number of samples a `NidaqSequencerCIEdgeGroup` finite task is configured
for (`build`, line 267): the maximum of `n_samples[name] + readout_delays[name]`
over the group's sources. -/
def ciEdgeTaskSamples (sources : List String) (nSamples readoutDelays : String → Nat) : Nat :=
  listMaxNat (sources.map (fun name => nSamples name + readoutDelays name))

/-- Readout of a `NidaqSequencerCIEdgeGroup` (lines 303-346): the raw
cumulative counts are read into a `uint32` buffer of `ciEdgeTaskSamples`
samples per channel; for every source the window `[d : d + n]` is sliced out
and the buffer value at index `d` is subtracted, with `uint32` wraparound,
from every element.  The reference value `data_buffer[j, d]` is modelled with
`List.getD _ _ 0`; the index is in range whenever `nSamples name ≥ 1` (in the
degenerate case `nSamples name = 0` with maximal delay the Python code raises
`IndexError` instead). -/
def ciEdgeReadout (sources : List String) (nSamples readoutDelays : String → Nat)
    (raw : String → Nat → Nat) : Dict (List Nat) :=
  let nTask := ciEdgeTaskSamples sources nSamples readoutDelays
  sources.map (fun name =>
    let buffer := (List.range nTask).map (fun i => toU32 (raw name i))
    let lo := readoutDelays name
    (name, (pySlice buffer lo (lo + nSamples name)).map (fun x => u32sub x (buffer.getD lo 0))))

/-- C6: for every edge-counter input channel with readout delay `d` and sample
count `n ≥ 1` in its group, given any cumulative-count stream (monotone,
within the 32-bit counter's range), the plain edge-counter group's readout maps
the channel to the slice `raw[d : d+n]` with `raw[d]` subtracted from every
element: the result has length `n` and its element at index 0 is identically 0. -/
theorem ciEdgeReadout_rebased (sources : List String) (nSamples readoutDelays : String → Nat)
    (raw : String → Nat → Nat) (name : String) (hmem : name ∈ sources)
    (hpos : 0 < nSamples name)
    (hmono : ∀ i j, i ≤ j → raw name i ≤ raw name j)
    (hbound : ∀ i, raw name i < U32) :
    ∃ out, Dict.find? (ciEdgeReadout sources nSamples readoutDelays raw) name = some out ∧
      out.length = nSamples name ∧
      (∀ i, i < nSamples name →
        out.getD i 0 = raw name (readoutDelays name + i) - raw name (readoutDelays name)) ∧
      out.getD 0 0 = 0 := by
  set nTask := ciEdgeTaskSamples sources nSamples readoutDelays with hnTask
  set d := readoutDelays name with hd
  set n := nSamples name with hn
  have hcover : n + d ≤ nTask := by
    apply listMaxNat_le_of_mem
    exact List.mem_map_of_mem (fun c => nSamples c + readoutDelays c) hmem
  set buffer := (List.range nTask).map (fun i => toU32 (raw name i)) with hbuf
  have hbuflen : buffer.length = nTask := rangeMap_length _ _
  have hbufget : ∀ j, j < nTask → buffer.getD j 0 = toU32 (raw name j) := fun j hj =>
    rangeMap_getD _ _ _ _ hj
  have hfind : Dict.find? (ciEdgeReadout sources nSamples readoutDelays raw) name =
      some ((pySlice buffer d (d + n)).map (fun x => u32sub x (buffer.getD d 0))) := by
    exact Dict.find?_mapSelf _ sources name hmem
  have hslice_len : (pySlice buffer d (d + n)).length = n := by
    rw [pySlice_length] <;> omega
  have hvals : ∀ i, i < n →
      ((pySlice buffer d (d + n)).map (fun x => u32sub x (buffer.getD d 0))).getD i 0 =
        raw name (d + i) - raw name d := by
    intro i hi
    rw [mapGetD _ _ i 0 0 (by omega)]
    rw [pySlice_getD buffer d (d + n) i 0 (by omega) (by omega)]
    rw [hbufget (d + i) (by omega), hbufget d (by omega)]
    rw [toU32_eq_self _ (hbound _), toU32_eq_self _ (hbound _)]
    exact u32sub_eq_sub _ _ (hmono d (d + i) (by omega)) (hbound _)
  refine ⟨_, hfind, ?_, hvals, ?_⟩
  · rw [List.length_map, hslice_len]
  · rw [hvals 0 hpos]
    simp

/-- Witness for `ciEdgeReadout_rebased` at a concrete channel. -/
theorem ciEdgeReadout_rebased_witness :
    ∃ out, Dict.find? (ciEdgeReadout ["ctr"] (fun _ => 3) (fun _ => 2)
        (fun _ i => min i 9)) "ctr" = some out ∧
      out.length = 3 ∧
      (∀ i, i < 3 → out.getD i 0 = min (2 + i) 9 - min 2 9) ∧
      out.getD 0 0 = 0 :=
  ciEdgeReadout_rebased ["ctr"] (fun _ => 3) (fun _ => 2) (fun _ i => min i 9) "ctr"
    (by simp) (by norm_num)
    (fun i j hij => min_le_min hij (le_refl 9))
    (fun i => lt_of_le_of_lt (min_le_right i 9) (by norm_num [U32]))

/-- Number of samples a `NidaqSequencerCIEdgeRateGroup` finite task is
configured for (`build`, line 424): one more than the maximum of
`n_samples[name] + readout_delays[name]` over the group's sources. -/
def ciEdgeRateTaskSamples (sources : List String) (nSamples readoutDelays : String → Nat) : Nat :=
  listMaxNat (sources.map (fun name => nSamples name + readoutDelays name)) + 1

/-- numpy `np.diff` on a `uint32` array: consecutive differences with
wraparound. -/
def npDiffU32 : List Nat → List Nat
  | a :: b :: rest => u32sub b a :: npDiffU32 (b :: rest)
  | _ => []

theorem npDiffU32_length : ∀ l : List Nat, (npDiffU32 l).length = l.length - 1
  | [] => rfl
  | [_] => rfl
  | a :: b :: rest => by
    have ih := npDiffU32_length (b :: rest)
    simp only [npDiffU32, List.length_cons] at *
    omega

theorem npDiffU32_getD : ∀ (l : List Nat) (i : Nat), i + 1 < l.length →
    (npDiffU32 l).getD i 0 = u32sub (l.getD (i + 1) 0) (l.getD i 0)
  | [], i, h => by simp at h
  | [_], i, h => by simp at h
  | _ :: _ :: _, 0, _ => by simp [npDiffU32]
  | a :: b :: rest, i + 1, h => by
    have ih := npDiffU32_getD (b :: rest) i (by simpa using h)
    simpa [npDiffU32] using ih

/-- Readout of a `NidaqSequencerCIEdgeRateGroup` (lines 460-502): the raw
cumulative counts are read into a `uint32` buffer of `ciEdgeRateTaskSamples`
samples per channel; for every source the window `[d : d + n + 1]` is sliced
out, consecutive differences are taken (`np.diff`, with `uint32` wraparound),
and each difference is scaled by the sample rate. -/
def ciEdgeRateReadout (sources : List String) (nSamples readoutDelays : String → Nat)
    (sampleRate : ℚ) (raw : String → Nat → Nat) : Dict (List ℚ) :=
  let nTask := ciEdgeRateTaskSamples sources nSamples readoutDelays
  sources.map (fun name =>
    let buffer := (List.range nTask).map (fun i => toU32 (raw name i))
    let lo := readoutDelays name
    (name, (npDiffU32 (pySlice buffer lo (lo + nSamples name + 1))).map
      (fun (x : Nat) => (x : ℚ) * sampleRate)))

/-- C7: the rate-variant edge-counter group's task is configured for exactly
one sample more than the maximum of `n_samples[c] + readout_delay[c]` over its
channels, and for every channel with delay `d` and sample count `n` its
readout has length exactly `n` (one fewer than the `n + 1` raw samples of the
delayed window) with `rate[i] = (raw[d+i+1] - raw[d+i]) * sample_rate`. -/
theorem ciEdgeRateReadout_rate (sources : List String) (nSamples readoutDelays : String → Nat)
    (sampleRate : ℚ) (raw : String → Nat → Nat) (name : String) (hmem : name ∈ sources)
    (hmono : ∀ i j, i ≤ j → raw name i ≤ raw name j)
    (hbound : ∀ i, raw name i < U32) :
    ciEdgeRateTaskSamples sources nSamples readoutDelays =
      listMaxNat (sources.map (fun c => nSamples c + readoutDelays c)) + 1 ∧
    ∃ out, Dict.find? (ciEdgeRateReadout sources nSamples readoutDelays sampleRate raw) name =
        some out ∧
      out.length = nSamples name ∧
      (∀ i, i < nSamples name →
        out.getD i 0 =
          ((raw name (readoutDelays name + i + 1) - raw name (readoutDelays name + i) : ℕ) : ℚ) *
            sampleRate) := by
  refine ⟨rfl, ?_⟩
  set nTask := ciEdgeRateTaskSamples sources nSamples readoutDelays with hnTask
  set d := readoutDelays name with hd
  set n := nSamples name with hn
  have hcover : n + d + 1 ≤ nTask := by
    have : n + d ≤ listMaxNat (sources.map (fun c => nSamples c + readoutDelays c)) := by
      apply listMaxNat_le_of_mem
      exact List.mem_map_of_mem (fun c => nSamples c + readoutDelays c) hmem
    simp only [hnTask, ciEdgeRateTaskSamples]
    omega
  set buffer := (List.range nTask).map (fun i => toU32 (raw name i)) with hbuf
  have hbuflen : buffer.length = nTask := rangeMap_length _ _
  have hbufget : ∀ j, j < nTask → buffer.getD j 0 = toU32 (raw name j) := fun j hj =>
    rangeMap_getD _ _ _ _ hj
  have hfind : Dict.find? (ciEdgeRateReadout sources nSamples readoutDelays sampleRate raw)
      name = some ((npDiffU32 (pySlice buffer d (d + n + 1))).map
        (fun (x : Nat) => (x : ℚ) * sampleRate)) := by
    exact Dict.find?_mapSelf _ sources name hmem
  have hslice_len : (pySlice buffer d (d + n + 1)).length = n + 1 := by
    rw [pySlice_length] <;> omega
  have hdiff_len : (npDiffU32 (pySlice buffer d (d + n + 1))).length = n := by
    rw [npDiffU32_length, hslice_len]
    omega
  refine ⟨_, hfind, ?_, ?_⟩
  · rw [List.length_map, hdiff_len]
  · intro i hi
    rw [mapGetD _ _ i 0 0 (by omega)]
    rw [npDiffU32_getD _ i (by omega)]
    rw [pySlice_getD buffer d (d + n + 1) (i + 1) 0 (by omega) (by omega)]
    rw [pySlice_getD buffer d (d + n + 1) i 0 (by omega) (by omega)]
    rw [hbufget (d + (i + 1)) (by omega), hbufget (d + i) (by omega)]
    rw [toU32_eq_self _ (hbound _), toU32_eq_self _ (hbound _)]
    rw [u32sub_eq_sub _ _ (hmono (d + i) (d + (i + 1)) (by omega)) (hbound _)]
    norm_num [Nat.add_assoc]

/-- Witness for `ciEdgeRateReadout_rate` at a concrete channel. -/
theorem ciEdgeRateReadout_rate_witness :
    ciEdgeRateTaskSamples ["ctr"] (fun _ => 2) (fun _ => 1) =
      listMaxNat (["ctr"].map (fun _ => 2 + 1)) + 1 ∧
    ∃ out, Dict.find? (ciEdgeRateReadout ["ctr"] (fun _ => 2) (fun _ => 1) 1000
        (fun _ i => min i 9)) "ctr" = some out ∧
      out.length = 2 ∧
      (∀ i, i < 2 →
        out.getD i 0 = ((min (1 + i + 1) 9 - min (1 + i) 9 : ℕ) : ℚ) * 1000) :=
  ciEdgeRateReadout_rate ["ctr"] (fun _ => 2) (fun _ => 1) 1000 (fun _ i => min i 9) "ctr"
    (by simp)
    (fun i j hij => min_le_min hij (le_refl 9))
    (fun i => lt_of_le_of_lt (min_le_right i 9) (by norm_num [U32]))

/-!
## Digital-output line packing

Embedding of `NidaqSequencerDO32LineGroup._convert_line_data_to_port_data`
(`src/qdlutils/hardware/nidaq/synchronous/nidaqsequenceroutputgroup.py`,
lines 492-522).  One port's channels are the `(line number, 0/1 stream)`
pairs of the lines grouped onto that port.
-/

/-- The packed stream for one port: starting from `np.zeros(n_samples,
dtype=np.uint32)`, each line's stream scaled by `2 ** line_num` is cast to
`uint32` and added sample-wise with `uint32` wraparound.  numpy's `+=`
requires equal shapes, so the model is faithful when every stream has length
`nSamples` (the group's build takes `nSamples` as the maximum stream length
and the sequencer's shape validation makes all lengths in a group equal). -/
def portPackedData (channels : List (Nat × List Nat)) (nSamples : Nat) : List Nat :=
  channels.foldl
    (fun data ch => List.zipWith (fun acc x => (acc + toU32 (2 ^ ch.1 * x)) % U32) data ch.2)
    (List.replicate nSamples 0)

theorem zipWith_getD {α : Type} (f : α → α → α) (a b : List α) (t : Nat) (dflt : α)
    (ha : t < a.length) (hb : t < b.length) :
    (List.zipWith f a b).getD t dflt = f (a.getD t dflt) (b.getD t dflt) := by
  simp [List.getD_eq_getElem?_getD, List.getElem?_zipWith,
    List.getElem?_eq_getElem ha, List.getElem?_eq_getElem hb]

theorem portFold_length (channels : List (Nat × List Nat)) (data : List Nat)
    (hlen : ∀ ch ∈ channels, ch.2.length = data.length) :
    (channels.foldl
      (fun data ch => List.zipWith (fun acc x => (acc + toU32 (2 ^ ch.1 * x)) % U32) data ch.2)
      data).length = data.length := by
  induction channels generalizing data with
  | nil => rfl
  | cons c rest ih =>
    have hc : c.2.length = data.length := hlen c (List.mem_cons_self c rest)
    have hstep : (List.zipWith (fun acc x => (acc + toU32 (2 ^ c.1 * x)) % U32)
        data c.2).length = data.length := by
      rw [List.length_zipWith]
      omega
    rw [List.foldl_cons, ih _ (fun ch hch => by rw [hlen ch (List.mem_cons_of_mem c hch), ← hstep]),
      hstep]

theorem portFold_getD (channels : List (Nat × List Nat)) (data : List Nat) (t : Nat)
    (hlen : ∀ ch ∈ channels, ch.2.length = data.length) (ht : t < data.length) :
    (channels.foldl
      (fun data ch => List.zipWith (fun acc x => (acc + toU32 (2 ^ ch.1 * x)) % U32) data ch.2)
      data).getD t 0 =
    channels.foldl (fun acc ch => (acc + toU32 (2 ^ ch.1 * ch.2.getD t 0)) % U32)
      (data.getD t 0) := by
  induction channels generalizing data with
  | nil => rfl
  | cons c rest ih =>
    have hc : c.2.length = data.length := hlen c (List.mem_cons_self c rest)
    have hstep : (List.zipWith (fun acc x => (acc + toU32 (2 ^ c.1 * x)) % U32)
        data c.2).length = data.length := by
      rw [List.length_zipWith]
      omega
    rw [List.foldl_cons, List.foldl_cons,
      ih _ (fun ch hch => by rw [hlen ch (List.mem_cons_of_mem c hch), ← hstep]) (by omega),
      zipWith_getD _ _ _ _ _ ht (by omega)]

theorem scalarFold_eq_sum (channels : List (Nat × List Nat)) (t : Nat) (acc : Nat)
    (hmod : acc + (channels.map (fun ch => 2 ^ ch.1 * ch.2.getD t 0)).sum < U32) :
    channels.foldl (fun acc ch => (acc + toU32 (2 ^ ch.1 * ch.2.getD t 0)) % U32) acc =
      acc + (channels.map (fun ch => 2 ^ ch.1 * ch.2.getD t 0)).sum := by
  induction channels generalizing acc with
  | nil => simp
  | cons c rest ih =>
    have hterm : 2 ^ c.1 * c.2.getD t 0 < U32 := by
      simp only [List.map_cons, List.sum_cons] at hmod
      omega
    have hrest : (acc + 2 ^ c.1 * c.2.getD t 0) +
        (rest.map (fun ch => 2 ^ ch.1 * ch.2.getD t 0)).sum < U32 := by
      simp only [List.map_cons, List.sum_cons] at hmod
      omega
    rw [List.foldl_cons, toU32_eq_self _ hterm,
      Nat.mod_eq_of_lt (by omega), ih _ hrest]
    simp only [List.map_cons, List.sum_cons]
    omega

theorem sum_range_two_pow (k : Nat) : (∑ i ∈ Finset.range k, 2 ^ i) = 2 ^ k - 1 := by
  induction k with
  | zero => simp
  | succ k ih =>
    rw [Finset.sum_range_succ, ih, pow_succ]
    have : 0 < 2 ^ k := Nat.pos_pow_of_pos k (by norm_num)
    omega

theorem sum_distinct_pow_lt (L : List Nat) (k : Nat) (hnd : L.Nodup)
    (hlt : ∀ l ∈ L, l < k) : (L.map (2 ^ ·)).sum < 2 ^ k := by
  have h1 : (L.map (2 ^ ·)).sum = L.toFinset.sum (2 ^ ·) :=
    (List.sum_toFinset _ hnd).symm
  have h2 : L.toFinset ⊆ Finset.range k := by
    intro x hx
    rw [List.mem_toFinset] at hx
    exact Finset.mem_range.mpr (hlt x hx)
  have h3 : L.toFinset.sum (2 ^ ·) ≤ ∑ i ∈ Finset.range k, 2 ^ i :=
    Finset.sum_le_sum_of_subset h2
  have h4 : 0 < 2 ^ k := Nat.pos_pow_of_pos k (by norm_num)
  rw [h1]
  calc L.toFinset.sum (2 ^ ·) ≤ ∑ i ∈ Finset.range k, 2 ^ i := h3
    _ = 2 ^ k - 1 := sum_range_two_pow k
    _ < 2 ^ k := by omega

theorem list_sum_filter_split {α : Type} (L : List α) (p : α → Bool) (f : α → Nat) :
    (L.map f).sum =
      ((L.filter p).map f).sum + ((L.filter (fun a => ! p a)).map f).sum := by
  induction L with
  | nil => simp
  | cons a rest ih =>
    rw [List.filter_cons, List.filter_cons]
    by_cases hpa : p a
    · rw [if_pos hpa, if_neg (by simp [hpa])]
      simp only [List.map_cons, List.sum_cons]
      rw [ih]
      omega
    · rw [if_neg hpa, if_pos (by simp [hpa])]
      simp only [List.map_cons, List.sum_cons]
      rw [ih]
      omega

theorem bit_sum_decomp (channels : List (Nat × List Nat)) (t k : Nat) (s : List Nat)
    (hnd : (channels.map Prod.fst).Nodup)
    (hbits : ∀ ch ∈ channels, ch.2.getD t 0 ≤ 1)
    (hmem : (k, s) ∈ channels) :
    Nat.testBit ((channels.map (fun ch => 2 ^ ch.1 * ch.2.getD t 0)).sum) k =
      decide (s.getD t 0 = 1) := by
  set f : Nat × List Nat → Nat := fun ch => 2 ^ ch.1 * ch.2.getD t 0 with hf
  obtain ⟨rest, hperm⟩ : ∃ rest, channels.Perm ((k, s) :: rest) :=
    ⟨_, List.perm_cons_erase hmem⟩
  have hsum : (channels.map f).sum = f (k, s) + (rest.map f).sum := by
    rw [(hperm.map f).sum_eq]
    simp
  have hndk : k ∉ rest.map Prod.fst := by
    have h1 : ((((k, s) : Nat × List Nat) :: rest).map Prod.fst).Nodup :=
      ((hperm.map Prod.fst).nodup_iff).mp hnd
    simp only [List.map_cons, List.nodup_cons] at h1
    exact h1.1
  have hbrest : ∀ ch ∈ rest, ch.2.getD t 0 ≤ 1 := fun ch hch =>
    hbits ch ((hperm.mem_iff).mpr (List.mem_cons_of_mem _ hch))
  have hndrest : (rest.map Prod.fst).Nodup := by
    have h1 : ((((k, s) : Nat × List Nat) :: rest).map Prod.fst).Nodup :=
      ((hperm.map Prod.fst).nodup_iff).mp hnd
    simp only [List.map_cons, List.nodup_cons] at h1
    exact h1.2
  -- split the remaining channels into lines below and above bit k
  set lows := rest.filter (fun ch => ch.1 < k) with hlows
  set highs := rest.filter (fun ch => ! (ch.1 < k)) with hhighs
  have hsplit : (rest.map f).sum = (lows.map f).sum + (highs.map f).sum :=
    list_sum_filter_split rest (fun ch => ch.1 < k) f
  have hlowbound : (lows.map f).sum < 2 ^ k := by
    have hle : (lows.map f).sum ≤ (lows.map (fun ch => 2 ^ ch.1)).sum := by
      apply List.sum_le_sum
      intro ch hch
      have hb : ch.2.getD t 0 ≤ 1 := hbrest ch (List.mem_of_mem_filter hch)
      calc f ch = 2 ^ ch.1 * ch.2.getD t 0 := rfl
        _ ≤ 2 ^ ch.1 * 1 := Nat.mul_le_mul_left _ hb
        _ = 2 ^ ch.1 := by ring
    have hcomp : (lows.map (fun ch => 2 ^ ch.1)).sum =
        ((lows.map Prod.fst).map (2 ^ ·)).sum := by
      rw [List.map_map]
      rfl
    have hndlow : (lows.map Prod.fst).Nodup :=
      ((List.filter_sublist rest).map Prod.fst).nodup hndrest
    have hltlow : ∀ l ∈ lows.map Prod.fst, l < k := by
      intro l hl
      obtain ⟨ch, hch, hcheq⟩ := List.mem_map.mp hl
      have := List.of_mem_filter hch
      simp only [decide_eq_true_eq] at this
      omega
    calc (lows.map f).sum ≤ (lows.map (fun ch => 2 ^ ch.1)).sum := hle
      _ = ((lows.map Prod.fst).map (2 ^ ·)).sum := hcomp
      _ < 2 ^ k := sum_distinct_pow_lt _ k hndlow hltlow
  have hhighdvd : 2 ^ (k + 1) ∣ (highs.map f).sum := by
    apply List.dvd_sum
    intro x hx
    obtain ⟨ch, hch, hcheq⟩ := List.mem_map.mp hx
    have h1 := List.of_mem_filter hch
    have h2 : ch.1 ≠ k := by
      intro hck
      apply hndk
      exact hck ▸ List.mem_map_of_mem Prod.fst (List.mem_of_mem_filter hch)
    simp only [Bool.not_eq_true', decide_eq_false_iff_not, not_lt] at h1
    have hgt : k + 1 ≤ ch.1 := by omega
    rw [← hcheq, hf]
    exact Dvd.dvd.mul_right (pow_dvd_pow 2 hgt) _
  obtain ⟨m, hm⟩ := hhighdvd
  set b := s.getD t 0 with hb
  have hbb : b ≤ 1 := hbits (k, s) hmem
  have hfk : f (k, s) = 2 ^ k * b := rfl
  have htotal : (channels.map f).sum = (lows.map f).sum + 2 ^ k * (b + 2 * m) := by
    rw [hsum, hsplit, hm, hfk]
    ring
  rw [Nat.testBit_to_div_mod, htotal]
  have hpos : 0 < 2 ^ k := Nat.pos_pow_of_pos k (by norm_num)
  rw [Nat.add_mul_div_left _ _ hpos, Nat.div_eq_of_lt hlowbound]
  have : (0 + (b + 2 * m)) % 2 = b := by omega
  rw [this]

/-- C8: for a digital-output line group whose channels on one port carry
distinct line numbers below the 32-bit port width and whose data streams of
length `n_samples` contain only 0s and 1s, the packed per-port stream equals,
at each sample, the sum over the port's lines of `line_bit * 2 ^ line_number`;
consequently the bit at position `line_number` of the port stream reproduces
every line's original 0/1 stream exactly. -/
theorem portPackedData_roundtrip (channels : List (Nat × List Nat)) (nSamples : Nat)
    (hlen : ∀ ch ∈ channels, ch.2.length = nSamples)
    (hnd : (channels.map Prod.fst).Nodup)
    (hlt : ∀ ch ∈ channels, ch.1 < 32)
    (hbits : ∀ ch ∈ channels, ∀ x ∈ ch.2, x ≤ 1) :
    (portPackedData channels nSamples).length = nSamples ∧
    (∀ t, t < nSamples → (portPackedData channels nSamples).getD t 0 =
      (channels.map (fun ch => 2 ^ ch.1 * ch.2.getD t 0)).sum) ∧
    (∀ ch ∈ channels, ∀ t, t < nSamples →
      Nat.testBit ((portPackedData channels nSamples).getD t 0) ch.1 =
        decide (ch.2.getD t 0 = 1)) := by
  have hlen' : ∀ ch ∈ channels, ch.2.length = (List.replicate nSamples (0 : Nat)).length := by
    intro ch hch
    rw [List.length_replicate]
    exact hlen ch hch
  have hbitsD : ∀ t, t < nSamples → ∀ ch ∈ channels, ch.2.getD t 0 ≤ 1 := by
    intro t ht ch hch
    have hlt' : t < ch.2.length := by rw [hlen ch hch]; exact ht
    rw [List.getD_eq_getElem _ _ hlt']
    exact hbits ch hch _ (List.getElem_mem hlt')
  have hmodbound : ∀ t, t < nSamples →
      (channels.map (fun ch => 2 ^ ch.1 * ch.2.getD t 0)).sum < U32 := by
    intro t ht
    have hle : (channels.map (fun ch => 2 ^ ch.1 * ch.2.getD t 0)).sum ≤
        (channels.map (fun ch => 2 ^ ch.1)).sum := by
      apply List.sum_le_sum
      intro ch hch
      calc 2 ^ ch.1 * ch.2.getD t 0 ≤ 2 ^ ch.1 * 1 :=
        Nat.mul_le_mul_left _ (hbitsD t ht ch hch)
        _ = 2 ^ ch.1 := by ring
    have hcomp : (channels.map (fun ch => 2 ^ ch.1)).sum =
        ((channels.map Prod.fst).map (2 ^ ·)).sum := by
      rw [List.map_map]
      rfl
    have hltf : ∀ l ∈ channels.map Prod.fst, l < 32 := by
      intro l hl
      obtain ⟨ch, hch, hcheq⟩ := List.mem_map.mp hl
      exact hcheq ▸ hlt ch hch
    have : ((channels.map Prod.fst).map (2 ^ ·)).sum < 2 ^ 32 :=
      sum_distinct_pow_lt _ 32 hnd hltf
    rw [U32_eq_pow]
    omega
  have hpoint : ∀ t, t < nSamples → (portPackedData channels nSamples).getD t 0 =
      (channels.map (fun ch => 2 ^ ch.1 * ch.2.getD t 0)).sum := by
    intro t ht
    have h1 := portFold_getD channels (List.replicate nSamples 0) t hlen'
      (by rw [List.length_replicate]; exact ht)
    rw [portPackedData, h1, List.getD_eq_getElem _ _ (by simpa using ht),
      List.getElem_replicate,
      scalarFold_eq_sum channels t 0 (by have h := hmodbound t ht; omega)]
    omega
  refine ⟨?_, hpoint, ?_⟩
  · rw [portPackedData, portFold_length channels _ hlen', List.length_replicate]
  · intro ch hch t ht
    rw [hpoint t ht]
    obtain ⟨k, s⟩ := ch
    exact bit_sum_decomp channels t k s hnd (hbitsD t ht) hch

/-- Witness for `portPackedData_roundtrip` with two lines on one port. -/
theorem portPackedData_roundtrip_witness :
    (portPackedData [(0, [1, 0, 1]), (2, [0, 1, 1])] 3).length = 3 ∧
    (∀ t, t < 3 → (portPackedData [(0, [1, 0, 1]), (2, [0, 1, 1])] 3).getD t 0 =
      ([(0, [1, 0, 1]), (2, [0, 1, 1])].map
        (fun (ch : Nat × List Nat) => 2 ^ ch.1 * ch.2.getD t 0)).sum) ∧
    (∀ ch ∈ [((0 : Nat), [1, 0, 1]), (2, [0, 1, 1])], ∀ t, t < 3 →
      Nat.testBit ((portPackedData [(0, [1, 0, 1]), (2, [0, 1, 1])] 3).getD t 0) ch.1 =
        decide (ch.2.getD t 0 = 1)) :=
  portPackedData_roundtrip [(0, [1, 0, 1]), (2, [0, 1, 1])] 3
    (by decide) (by decide) (by decide) (by decide)

/-!
## Sequencer construction and the controller layer

Embeddings of `NidaqSequencer.__init__`
(`src/qdlutils/hardware/nidaq/synchronous/nidaqsequencer.py`, lines 17-67)
and `SequenceControllerBase`
(`src/qdlutils/experiments/controllers/sequencecontrollerbase.py`).
-/

/-- State of a constructed sequencer.  The input groups are the AI-voltage
groups (group name → ordered source names) and the output groups are the
AO-voltage groups (group name → ordered channel configs `(name, min, max)`);
the clock strings have no effect on the data model and are omitted. -/
structure SequencerModel where
  inputGroups : Dict (List String)
  outputGroups : Dict (List (String × ℚ × ℚ))

/-- The inverted source-name → group-name mapping built in
`NidaqSequencer.__init__` (lines 52-67), raising `ValueError` when a source
name is registered by two groups of the same kind. -/
def sourceGroupMap (sourceNames : Dict (List String)) : Py (Dict String) :=
  sourceNames.foldlM
    (fun acc g =>
      g.2.foldlM
        (fun acc src =>
          if acc.hasKey src then .error (.valueError "redundant source name")
          else .ok (acc.setItem src g.1))
        acc)
    []

/-- Body of `NidaqSequencer.__init__` (lines 17-67): stores the groups and
builds both inverted source maps with the redundancy check. -/
def nidaqSequencerInit (inputs : Dict (List String))
    (outputs : Dict (List (String × ℚ × ℚ))) : Py SequencerModel := do
  let _ ← sourceGroupMap inputs
  let _ ← sourceGroupMap (outputs.map (fun g => (g.1, g.2.map (fun ch => ch.1))))
  pure ⟨inputs, outputs⟩

/-- The parameters of `NidaqSequencer.__init__` (lines 17-24): all five
besides `self` are required, having no default values. -/
def nidaqSequencerInitRequired : List String :=
  ["inputs", "outputs", "clock_device", "clock_channel", "clock_terminal"]

/-- The keyword arguments supplied to `NidaqSequencer(...)` at the call site
inside `SequenceControllerBase.__init__` (sequencecontrollerbase.py lines
92-97): `clock_terminal` is not among them. -/
def sequenceControllerBaseInitCallKwargs : List String :=
  ["inputs", "outputs", "clock_device", "clock_channel"]

/-- Python call binding: a `TypeError` is raised before the callee's body
runs when some required parameter receives no argument. -/
def pyBindRequired (required provided : List String) : Py Unit :=
  if required.all (fun p => provided.contains p) then .ok () else .error .typeError

/-- The parameters of every input group's `build` method
(nidaqsequencerinputgroup.py lines 59-66, 116-123, 230-237 and 382-389
declare the identical signature): all five besides `self` are required,
having no default values. -/
def inputBuildRequired : List String :=
  ["n_samples", "clock_device", "clock_terminal", "sample_rate", "readout_delays"]

/-- The keyword arguments supplied to `self.inputs[name].build(...)` inside
`run_sequence` (nidaqsequencer.py lines 141-146): `clock_terminal` is not
among them. -/
def inputBuildCallKwargs : List String :=
  ["n_samples", "clock_device", "sample_rate", "readout_delays"]

/-- The parameters of every output group's `build` method
(nidaqsequenceroutputgroup.py lines 79-85, 189-195 and 367-373 declare the
identical signature): all four besides `self` are required, having no
default values. -/
def outputBuildRequired : List String :=
  ["data", "clock_device", "clock_terminal", "sample_rate"]

/-- The keyword arguments supplied to `self.outputs[name].build(...)` inside
`run_sequence` (nidaqsequencer.py lines 153-157): `clock_terminal` is not
among them. -/
def outputBuildCallKwargs : List String :=
  ["data", "clock_device", "sample_rate"]

/-- Binding an input group's `build` call as made by `run_sequence` raises
`TypeError`: the required `clock_terminal` receives no argument. -/
theorem inputBuild_bind_typeError :
    pyBindRequired inputBuildRequired inputBuildCallKwargs = .error .typeError := rfl

/-- Binding an output group's `build` call as made by `run_sequence` raises
`TypeError`: the required `clock_terminal` receives no argument. -/
theorem outputBuild_bind_typeError :
    pyBindRequired outputBuildRequired outputBuildCallKwargs = .error .typeError := rfl

/-- `SequenceControllerBase.__init__` (lines 34-110): saves the settings and
instantiates the `NidaqSequencer` with the four keyword arguments of lines
92-97; Python's call binding runs before the callee body. -/
def sequenceControllerBaseInit (inputs : Dict (List String))
    (outputs : Dict (List (String × ℚ × ℚ))) : Py SequencerModel := do
  pyBindRequired nidaqSequencerInitRequired sequenceControllerBaseInitCallKwargs
  nidaqSequencerInit inputs outputs

/-- C2: for every inputs/outputs dictionary argument, constructing a
`SequenceControllerBase` (and hence any controller delegating to its
`__init__`) raises `TypeError`, because the `NidaqSequencer` is instantiated
without the required `clock_terminal` parameter; no instance can ever be
constructed. -/
theorem sequenceControllerBaseInit_typeError (inputs : Dict (List String))
    (outputs : Dict (List (String × ℚ × ℚ))) :
    sequenceControllerBaseInit inputs outputs = .error .typeError := rfl

/-!
## Controller busy/stop flags

Embedding of `SequenceControllerBase.run_n_sequences` (lines 198-265) and
`SequenceControllerBase.set_output` (lines 268-287), tracking the `busy` and
`stop` control attributes (lines 108-110).
-/

/-- The `busy`/`stop` control state of a controller. -/
structure CtlState where
  busy : Bool
  stop : Bool
  deriving Repr, DecidableEq

/-- Outcome of consuming the `run_n_sequences` generator to its end: the
loop finished (by exhausting `range(n)` or via the cooperative-stop break),
or an exception propagated out of an iteration; with the values yielded so
far and the final flag state. -/
inductive RunOutcome (α : Type) where
  | completed (yields : List α) (final : CtlState)
  | raised (err : PyErr) (yields : List α) (final : CtlState)
  deriving Repr

/-- The final flag state of a generator outcome. -/
def RunOutcome.finalState {α : Type} : RunOutcome α → CtlState
  | .completed _ st => st
  | .raised _ _ st => st

/-- The `for i in range(n)` loop of `run_n_sequences` (lines 254-265):
`_run_sequence` is abstracted as `runOne i` (the sequencer run plus optional
processing at iteration `i`) and the externally mutated `self.stop`
attribute as `stopFlag i`, its value at the check following the `i`-th
yield.  After the loop both flags are reset (lines 262-264); an exception
from `runOne` propagates out of the generator with no reset. -/
def runNSequencesLoop {α : Type} (runOne : Nat → Py α) (stopFlag : Nat → Bool) :
    Nat → Nat → List α → RunOutcome α
  | 0, _, acc => .completed acc ⟨false, false⟩
  | r + 1, i, acc =>
    match runOne i with
    | .error e => .raised e acc ⟨true, stopFlag i⟩
    | .ok v =>
      if stopFlag i then .completed (acc ++ [v]) ⟨false, false⟩
      else runNSequencesLoop runOne stopFlag r (i + 1) (acc ++ [v])

/-- `SequenceControllerBase.run_n_sequences` (lines 198-265), consumed to
exhaustion: the busy guard raises `RuntimeError` when busy (line 249),
otherwise the busy flag is set (line 252) and the yield loop runs. -/
def runNSequences {α : Type} (st : CtlState) (n : Nat) (runOne : Nat → Py α)
    (stopFlag : Nat → Bool) : RunOutcome α :=
  if st.busy then .raised (.runtimeError "controller in use") [] st
  else runNSequencesLoop runOne stopFlag n 0 []

/-- `SequenceControllerBase.set_output` (lines 268-287): busy guard, set
busy, attempt the write; the `except Exception as e: raise e` handler
re-raises, so the busy reset of line 287 is skipped on the raising path. -/
def setOutputCtl (st : CtlState) (write : Py Unit) : Py Unit × CtlState :=
  if st.busy then (.error (.runtimeError "controller in use"), st)
  else
    match write with
    | .error e => (.error e, ⟨true, st.stop⟩)
    | .ok _ => (.ok (), ⟨false, st.stop⟩)

/-- C3 counterexample: starting from an idle controller, a failing sequence
execution inside `run_n_sequences` and a failing write inside `set_output`
both leave the busy flag set — the claimed guaranteed reset does not happen
on the exception paths. -/
theorem controllerFlags_stuck_cex :
    (runNSequences ⟨false, false⟩ 1 (fun _ => (.error .indexError : Py Unit))
      (fun _ => false)).finalState.busy = true ∧
    (setOutputCtl ⟨false, false⟩ (.error .indexError)).2.busy = true :=
  ⟨rfl, rfl⟩

theorem runNSequencesLoop_flags {α : Type} (runOne : Nat → Py α) (stopFlag : Nat → Bool) :
    ∀ (r i : Nat) (acc : List α),
      (∀ ys fin, runNSequencesLoop runOne stopFlag r i acc = .completed ys fin →
        fin.busy = false ∧ fin.stop = false) ∧
      (∀ e ys fin, runNSequencesLoop runOne stopFlag r i acc = .raised e ys fin →
        fin.busy = true) := by
  intro r
  induction r with
  | zero =>
    intro i acc
    constructor
    · intro ys fin h
      simp only [runNSequencesLoop] at h
      cases h
      exact ⟨rfl, rfl⟩
    · intro e ys fin h
      simp only [runNSequencesLoop] at h
      cases h
  | succ r ih =>
    intro i acc
    constructor
    · intro ys fin h
      simp only [runNSequencesLoop] at h
      cases hro : runOne i with
      | error e =>
        simp only [hro] at h
        cases h
      | ok v =>
        simp only [hro] at h
        by_cases hsf : stopFlag i
        · rw [if_pos hsf] at h
          cases h
          exact ⟨rfl, rfl⟩
        · rw [if_neg hsf] at h
          exact (ih (i + 1) (acc ++ [v])).1 ys fin h
    · intro e ys fin h
      simp only [runNSequencesLoop] at h
      cases hro : runOne i with
      | error e' =>
        simp only [hro] at h
        cases h
        rfl
      | ok v =>
        simp only [hro] at h
        by_cases hsf : stopFlag i
        · rw [if_pos hsf] at h
          cases h
        · rw [if_neg hsf] at h
          exact (ih (i + 1) (acc ++ [v])).2 e ys fin h

/-- C3 (amended): starting from a non-busy controller, the busy and stop
flags are reset on every non-raising exit of `run_n_sequences` (exhaustion of
the `n` iterations, or the cooperative-stop break), and `set_output` resets
the busy flag when the write succeeds; but when the underlying sequence
execution or write raises, the exception propagates before the flag reset
and the busy flag remains set. -/
theorem controllerFlags_reset_amended {α : Type} (st : CtlState) (n : Nat)
    (runOne : Nat → Py α) (stopFlag : Nat → Bool) (write : Py Unit)
    (hb : st.busy = false) :
    (∀ ys fin, runNSequences st n runOne stopFlag = .completed ys fin →
      fin.busy = false ∧ fin.stop = false) ∧
    (∀ e ys fin, runNSequences st n runOne stopFlag = .raised e ys fin →
      fin.busy = true) ∧
    ((setOutputCtl st write).1 = .ok () → (setOutputCtl st write).2.busy = false) ∧
    (∀ e, write = .error e → (setOutputCtl st write).1 = .error e ∧
      (setOutputCtl st write).2.busy = true) := by
  have hloop := runNSequencesLoop_flags runOne stopFlag n 0 []
  simp only [runNSequences, setOutputCtl, hb, Bool.false_eq_true, if_false]
  refine ⟨hloop.1, hloop.2, ?_, ?_⟩
  · cases write with
    | error e => intro h; cases h
    | ok v => intro _; rfl
  · intro e he
    subst he
    exact ⟨rfl, rfl⟩

/-- Witness for `controllerFlags_reset_amended` on an idle controller. -/
theorem controllerFlags_reset_amended_witness :
    (∀ ys fin, runNSequences ⟨false, false⟩ 2 (fun i => (.ok i : Py Nat))
        (fun _ => false) = .completed ys fin →
      fin.busy = false ∧ fin.stop = false) ∧
    (∀ e ys fin, runNSequences ⟨false, false⟩ 2 (fun i => (.ok i : Py Nat))
        (fun _ => false) = .raised e ys fin →
      fin.busy = true) ∧
    ((setOutputCtl ⟨false, false⟩ (.ok ())).1 = .ok () →
      (setOutputCtl ⟨false, false⟩ (.ok ())).2.busy = false) ∧
    (∀ e, (.ok () : Py Unit) = .error e →
      (setOutputCtl ⟨false, false⟩ (.ok ())).1 = .error e ∧
      (setOutputCtl ⟨false, false⟩ (.ok ())).2.busy = true) :=
  controllerFlags_reset_amended ⟨false, false⟩ 2 (fun i => (.ok i : Py Nat))
    (fun _ => false) (.ok ()) rfl

/-!
## Resource lifecycle of `run_sequence`

Event-trace embedding of `NidaqSequencer.run_sequence`
(`src/qdlutils/hardware/nidaq/synchronous/nidaqsequencer.py`, lines
124-177).  Each group-`build` call site is modelled with its Python call
binding: the call omits the required `clock_terminal` parameter, so the
binding raises `TypeError` before the build body can run.  `waitFails g`
abstracts a completion timeout of group `g`'s task; all other hardware
calls succeed.
-/

/-- Events observable on hardware resources during one `run_sequence` call. -/
inductive SeqEvent where
  | clockCommitted
  | built (group : String)
  | started (group : String)
  | clockStarted
  | waited (group : String)
  | readOut (group : String)
  | closed (group : String)
  | clockReleased
  deriving Repr, DecidableEq

/-- A traced step: its Python outcome plus the events it emitted. -/
abbrev Traced := Py Unit × List SeqEvent

/-- Sequential composition of traced steps: the second step runs only when
the first did not raise; events accumulate. -/
def andThen (a : Traced) (b : Traced) : Traced :=
  match a with
  | (.error e, tr) => (.error e, tr)
  | (.ok _, tr) => (b.1, tr ++ b.2)

/-- The build-and-start loop over a kind of groups (lines 139-149 for
inputs, 151-158 for outputs): each iteration first binds the group's
`build` call against the method's required parameters; only when the
binding succeeds does the build body run (event `built`, then
`task.start()` emits `started`), while a raised `TypeError` propagates
immediately and aborts the loop.  At both call sites the supplied keyword
arguments omit the required `clock_terminal`, so the binding always
raises. -/
def buildStartPhase (names required provided : List String) : Traced :=
  match names with
  | [] => (.ok (), [])
  | g :: rest =>
    match pyBindRequired required provided with
    | .error e => (.error e, [])
    | .ok _ =>
      andThen (.ok (), [.built g, .started g]) (buildStartPhase rest required provided)

/-- The `wait_until_done` loop over a kind of groups (lines 164-167): each
wait either completes within the timeout (event `waited`) or raises. -/
def waitPhase (names : List String) (waitFails : String → Bool) : Traced :=
  match names with
  | [] => (.ok (), [])
  | g :: rest =>
    if waitFails g then (.error (.runtimeError "wait timeout"), [])
    else andThen (.ok (), [.waited g]) (waitPhase rest waitFails)

/-- The input readout loop (lines 170-171). -/
def readoutPhase (names : List String) : Traced := (.ok (), names.map .readOut)

/-- One `close()` loop over a kind of groups (lines 174-177). -/
def closePhase (names : List String) : Traced := (.ok (), names.map .closed)

/-- Resource trace of `run_sequence` (lines 124-177): the clock task is
created, committed and — thanks to the `with nidaqmx.Task() as clock_task`
block — released on every exit path; the input then output group build
loops run (binding each `build` call as written, lines 141-146 and
153-157), the clock is started, completion is awaited for every task,
inputs are read out, and the group closes run last, only when every prior
step succeeded. -/
def runSequenceTrace (inputNames outputNames : List String)
    (waitFails : String → Bool) : Traced :=
  let body :=
    andThen (.ok (), [.clockCommitted]) <|
    andThen (buildStartPhase inputNames inputBuildRequired inputBuildCallKwargs) <|
    andThen (buildStartPhase outputNames outputBuildRequired outputBuildCallKwargs) <|
    andThen (.ok (), [.clockStarted]) <|
    andThen (waitPhase inputNames waitFails) <|
    andThen (waitPhase outputNames waitFails) <|
    andThen (readoutPhase inputNames) <|
    andThen (closePhase inputNames) (closePhase outputNames)
  (body.1, body.2 ++ [.clockReleased])

/-- With a binding that raises — as both `build` call sites do — the build
loop emits no event at all, succeeding only on an empty group list. -/
theorem buildStartPhase_bind_error (names required provided : List String)
    (h : pyBindRequired required provided = .error .typeError) :
    (buildStartPhase names required provided).2 = [] ∧
    (buildStartPhase names required provided).1 =
      (if names = [] then .ok () else .error PyErr.typeError) := by
  cases names with
  | nil => exact ⟨rfl, rfl⟩
  | cons g rest =>
    refine ⟨?_, ?_⟩ <;> simp [buildStartPhase, h]

/-- C4: for every execution of `run_sequence`, every channel group whose
`build` succeeded has its `close()` invoked before `run_sequence` returns
or propagates, and the clock task is always released (the trace ends with
`clockReleased` on every path).  The interesting case is vacuous: no
group's `build` can ever succeed, because both build call sites omit the
required `clock_terminal` parameter and raise `TypeError` at Python call
binding (cf. C1), so the trace never contains a `built` event — and with
at least one registered group the call propagates that `TypeError`. -/
theorem runSequenceTrace_built_closed (inputNames outputNames : List String)
    (waitFails : String → Bool) :
    (runSequenceTrace inputNames outputNames waitFails).2.getLast? =
      some SeqEvent.clockReleased ∧
    (∀ g, SeqEvent.built g ∉ (runSequenceTrace inputNames outputNames waitFails).2) ∧
    (∀ g, SeqEvent.built g ∈ (runSequenceTrace inputNames outputNames waitFails).2 →
      SeqEvent.closed g ∈ (runSequenceTrace inputNames outputNames waitFails).2) ∧
    (inputNames ≠ [] ∨ outputNames ≠ [] →
      (runSequenceTrace inputNames outputNames waitFails).1 = .error PyErr.typeError) := by
  cases inputNames with
  | cons g rest =>
    have hb : buildStartPhase (g :: rest) inputBuildRequired inputBuildCallKwargs =
        (Except.error PyErr.typeError, []) := by
      simp only [buildStartPhase, inputBuild_bind_typeError]
    have htr : runSequenceTrace (g :: rest) outputNames waitFails =
        (Except.error PyErr.typeError,
          [SeqEvent.clockCommitted, SeqEvent.clockReleased]) := by
      simp only [runSequenceTrace, hb, andThen]
      rfl
    have hnb : ∀ g', SeqEvent.built g' ∉
        (runSequenceTrace (g :: rest) outputNames waitFails).2 := by
      rw [htr]
      intro g'
      simp
    exact ⟨by rw [htr]; rfl, hnb, fun g' h => absurd h (hnb g'), fun _ => by rw [htr]⟩
  | nil =>
    cases outputNames with
    | cons g rest =>
      have htr : runSequenceTrace [] (g :: rest) waitFails =
          (Except.error PyErr.typeError,
            [SeqEvent.clockCommitted, SeqEvent.clockReleased]) := by
        simp only [runSequenceTrace, buildStartPhase, outputBuild_bind_typeError, andThen]
        rfl
      have hnb : ∀ g', SeqEvent.built g' ∉
          (runSequenceTrace [] (g :: rest) waitFails).2 := by
        rw [htr]
        intro g'
        simp
      exact ⟨by rw [htr]; rfl, hnb, fun g' h => absurd h (hnb g'), fun _ => by rw [htr]⟩
    | nil =>
      have htr : runSequenceTrace [] [] waitFails =
          (Except.ok (), [SeqEvent.clockCommitted, SeqEvent.clockStarted,
            SeqEvent.clockReleased]) := rfl
      have hnb : ∀ g', SeqEvent.built g' ∉ (runSequenceTrace [] [] waitFails).2 := by
        rw [htr]
        intro g'
        simp
      refine ⟨by rw [htr]; rfl, hnb, fun g' h => absurd h (hnb g'), ?_⟩
      rintro (h | h) <;> exact absurd rfl h

/-- Witness for `runSequenceTrace_built_closed` at a run with one input and
one output group: the binding `TypeError` propagates and no group is ever
built. -/
theorem runSequenceTrace_built_closed_witness :
    (∀ g, SeqEvent.built g ∉ (runSequenceTrace ["in1"] ["out1"] (fun _ => false)).2) ∧
    (runSequenceTrace ["in1"] ["out1"] (fun _ => false)).1 = .error PyErr.typeError :=
  ⟨(runSequenceTrace_built_closed ["in1"] ["out1"] (fun _ => false)).2.1,
    (runSequenceTrace_built_closed ["in1"] ["out1"] (fun _ => false)).2.2.2
      (Or.inl (by decide))⟩

/-!
## `get_data` with explicit names

Embedding of the `names`-branch of `NidaqSequencer.get_data`
(`src/qdlutils/hardware/nidaq/synchronous/nidaqsequencer.py`, lines
205-224).  `inputData`/`outputData` map group names to the `data`
dictionary each group holds after a run; `inputSourceGroup` /
`outputSourceGroup` are the inverted source-name → group-name maps
built by `__init__`.
-/

theorem exceptBind_ok {α β : Type} (x : α) (f : α → Py β) : (Except.ok x >>= f) = f x := rfl

theorem exceptBind_err {α β : Type} (e : PyErr) (f : α → Py β) :
    ((Except.error e : Py α) >>= f) = .error e := rfl

theorem Dict.setItem_cons_eq {α : Type} (ka : String) (va v : α) (rest : Dict α) :
    Dict.setItem ((ka, va) :: rest) ka v = (ka, v) :: rest := by
  simp [Dict.setItem]

theorem Dict.setItem_cons_ne {α : Type} (ka k : String) (va v : α) (rest : Dict α)
    (hk : ka ≠ k) :
    Dict.setItem ((ka, va) :: rest) k v = (ka, va) :: Dict.setItem rest k v := by
  simp [Dict.setItem, hk]

theorem Dict.mem_keys_setItem {α : Type} (d : Dict α) (k k' : String) (v : α) :
    k' ∈ Dict.keysList (Dict.setItem d k v) ↔ k' ∈ Dict.keysList d ∨ k' = k := by
  induction d with
  | nil => simp [Dict.setItem, Dict.keysList]
  | cons a rest ih =>
    obtain ⟨ka, va⟩ := a
    by_cases hk : ka = k
    · subst hk
      rw [Dict.setItem_cons_eq]
      simp only [Dict.keysList, List.map_cons, List.mem_cons]
      tauto
    · rw [Dict.setItem_cons_ne ka k va v rest hk]
      simp only [Dict.keysList, List.map_cons, List.mem_cons]
      rw [show List.map Prod.fst (Dict.setItem rest k v) =
        Dict.keysList (Dict.setItem rest k v) from rfl]
      rw [ih]
      rw [show List.map Prod.fst rest = Dict.keysList rest from rfl]
      tauto

theorem Dict.mem_keys_unionUpdate {α : Type} (d e : Dict α) (k : String) :
    k ∈ Dict.keysList (Dict.unionUpdate d e) ↔
      k ∈ Dict.keysList d ∨ k ∈ Dict.keysList e := by
  induction e generalizing d with
  | nil => simp [Dict.unionUpdate, Dict.keysList]
  | cons a rest ih =>
    obtain ⟨ka, va⟩ := a
    have hstep : Dict.unionUpdate d ((ka, va) :: rest) =
        Dict.unionUpdate (Dict.setItem d ka va) rest := rfl
    rw [hstep, ih, Dict.mem_keys_setItem]
    simp only [Dict.keysList, List.map_cons, List.mem_cons]
    tauto

/-- The data-dictionary fetch for one requested name in `get_data`
(lines 211-219): the `try` block looks the name up in the input source map
and fetches the owning input group; any `KeyError` inside it (unknown input
name, or missing input group) is caught and the handler resolves through the
output source map, whose own `KeyError` propagates — the crafted message of
the trailing bare `except` is unreachable, since a handler of the same `try`
does not catch exceptions raised in an earlier handler. -/
def fetchGroupData (inputData outputData : Dict (Dict (List ℚ)))
    (inputSourceGroup outputSourceGroup : Dict String) (name : String) :
    Py (Dict (List ℚ)) :=
  let tryInputs : Py (Dict (List ℚ)) :=
    match Dict.find? inputSourceGroup name with
    | some g => Dict.getItem inputData g
    | none => .error (.keyError name)
  match tryInputs with
  | .ok dd => .ok dd
  | .error (.keyError _) =>
    (match Dict.find? outputSourceGroup name with
     | some g => Dict.getItem outputData g
     | none => .error (.keyError name))
  | .error e => .error e

/-- One iteration of the `names` loop of `get_data` (lines 211-221): fetch
the owning group's data dictionary and merge it with `data |= data_dict`. -/
def getDataStep (inputData outputData : Dict (Dict (List ℚ)))
    (inputSourceGroup outputSourceGroup : Dict String)
    (data : Dict (List ℚ)) (name : String) : Py (Dict (List ℚ)) :=
  match fetchGroupData inputData outputData inputSourceGroup outputSourceGroup name with
  | .ok dd => .ok (Dict.unionUpdate data dd)
  | .error e => .error e

/-- The `names`-branch of `get_data` (lines 206-224): starting from an empty
result, each requested name's owning group is resolved and that group's
whole `data` dictionary is merged into the result. -/
def getDataNames (inputData outputData : Dict (Dict (List ℚ)))
    (inputSourceGroup outputSourceGroup : Dict String) (names : List String) :
    Py (Dict (List ℚ)) :=
  names.foldlM (getDataStep inputData outputData inputSourceGroup outputSourceGroup) []

theorem getDataStep_ok (igd ogd : Dict (Dict (List ℚ))) (isg osg : Dict String)
    (data : Dict (List ℚ)) (name : String) (dd : Dict (List ℚ))
    (h : fetchGroupData igd ogd isg osg name = .ok dd) :
    getDataStep igd ogd isg osg data name = .ok (Dict.unionUpdate data dd) := by
  simp only [getDataStep, h]

theorem getDataStep_err (igd ogd : Dict (Dict (List ℚ))) (isg osg : Dict String)
    (data : Dict (List ℚ)) (name : String) (e : PyErr)
    (h : fetchGroupData igd ogd isg osg name = .error e) :
    getDataStep igd ogd isg osg data name = .error e := by
  simp only [getDataStep, h]

/-- C5 counterexample: with one input group `g` holding data for channels
`a` and `b`, requesting only `a` returns both entries — the keys of the
result are not exactly the requested names, because `get_data` merges the
owning group's whole data dictionary. -/
theorem getDataNames_extra_entry_cex :
    getDataNames [("g", [("a", [(1 : ℚ)]), ("b", [2])])] []
        [("a", "g"), ("b", "g")] [] ["a"] =
      .ok [("a", [(1 : ℚ)]), ("b", [2])] ∧
    Dict.keysList [("a", [(1 : ℚ)]), ("b", [(2 : ℚ)])] ≠ ["a"] := by
  constructor
  · rfl
  · simp [Dict.keysList]

theorem fetchGroupData_unregistered (inputData outputData : Dict (Dict (List ℚ)))
    (isg osg : Dict String) (bad : String)
    (h1 : Dict.find? isg bad = none) (h2 : Dict.find? osg bad = none) :
    fetchGroupData inputData outputData isg osg bad = .error (.keyError bad) := by
  simp only [fetchGroupData, h1, h2]

theorem getDataNamesLoop_ok (igd ogd : Dict (Dict (List ℚ))) (isg osg : Dict String) :
    ∀ (names : List String) (acc : Dict (List ℚ)),
      (∀ nm ∈ names, ∃ dd, fetchGroupData igd ogd isg osg nm = .ok dd) →
      ∃ out,
        names.foldlM (getDataStep igd ogd isg osg) acc = .ok out ∧
        (∀ k, k ∈ Dict.keysList acc → k ∈ Dict.keysList out) ∧
        (∀ nm ∈ names, ∀ dd, fetchGroupData igd ogd isg osg nm = .ok dd →
          ∀ k ∈ Dict.keysList dd, k ∈ Dict.keysList out) ∧
        (∀ k, k ∈ Dict.keysList out → k ∈ Dict.keysList acc ∨
          ∃ nm, nm ∈ names ∧ ∃ dd, fetchGroupData igd ogd isg osg nm = .ok dd ∧
            k ∈ Dict.keysList dd) := by
  intro names
  induction names with
  | nil =>
    intro acc _
    refine ⟨acc, ?_, fun k hk => hk, ?_, fun k hk => Or.inl hk⟩
    · rw [List.foldlM_nil]
      rfl
    · intro nm hnm
      cases hnm
  | cons n rest ih =>
    intro acc hres
    obtain ⟨dd, hdd⟩ := hres n (List.mem_cons_self n rest)
    have hresRest : ∀ nm ∈ rest, ∃ dd, fetchGroupData igd ogd isg osg nm = .ok dd :=
      fun nm hnm => hres nm (List.mem_cons_of_mem n hnm)
    obtain ⟨out, hout, hmono, hcover, hconv⟩ := ih (Dict.unionUpdate acc dd) hresRest
    refine ⟨out, ?_, ?_, ?_, ?_⟩
    · rw [List.foldlM_cons, getDataStep_ok igd ogd isg osg acc n dd hdd, exceptBind_ok]
      exact hout
    · intro k hk
      exact hmono k ((Dict.mem_keys_unionUpdate acc dd k).mpr (.inl hk))
    · intro nm hnm dd' hdd' k hk
      cases hnm with
      | head =>
        have hdde : dd' = dd := by
          rw [hdd'] at hdd
          cases hdd
          rfl
        subst hdde
        exact hmono k ((Dict.mem_keys_unionUpdate acc dd' k).mpr (.inr hk))
      | tail _ hnm' =>
        exact hcover nm hnm' dd' hdd' k hk
    · intro k hk
      rcases hconv k hk with hacc | ⟨nm, hnm, dd', hdd', hkd⟩
      · rcases (Dict.mem_keys_unionUpdate acc dd k).mp hacc with h | h
        · exact .inl h
        · exact .inr ⟨n, List.mem_cons_self n rest, dd, hdd, h⟩
      · exact .inr ⟨nm, List.mem_cons_of_mem n hnm, dd', hdd', hkd⟩

theorem getDataNamesLoop_err (igd ogd : Dict (Dict (List ℚ))) (isg osg : Dict String)
    (bad : String) (post : List String)
    (hbadi : Dict.find? isg bad = none) (hbado : Dict.find? osg bad = none) :
    ∀ (pre : List String) (acc : Dict (List ℚ)),
      (∀ nm ∈ pre, ∃ dd, fetchGroupData igd ogd isg osg nm = .ok dd) →
      (pre ++ bad :: post).foldlM (getDataStep igd ogd isg osg) acc =
        .error (.keyError bad) := by
  intro pre
  induction pre with
  | nil =>
    intro acc _
    rw [List.nil_append, List.foldlM_cons,
      getDataStep_err igd ogd isg osg acc bad (.keyError bad)
        (fetchGroupData_unregistered igd ogd isg osg bad hbadi hbado),
      exceptBind_err]
  | cons n rest ih =>
    intro acc hres
    obtain ⟨dd, hdd⟩ := hres n (List.mem_cons_self n rest)
    rw [List.cons_append, List.foldlM_cons,
      getDataStep_ok igd ogd isg osg acc n dd hdd, exceptBind_ok]
    exact ih (Dict.unionUpdate acc dd)
      (fun nm hnm => hres nm (List.mem_cons_of_mem n hnm))

/-- C5 (amended): `get_data(names=...)` resolves each requested name to its
owning group and merges that group's *entire* data dictionary, so when every
requested name resolves the call succeeds and the result's keys are exactly
the keys contributed by the owning groups' data dictionaries — a superset of
the requested names whenever each group's dictionary contains its own
channels, possibly including non-requested sibling channels; and a request
containing a name registered in no input or output group fails with a
`KeyError` at the first such name. -/
theorem getDataNames_group_union (igd ogd : Dict (Dict (List ℚ)))
    (isg osg : Dict String) (names : List String) :
    ((∀ nm ∈ names, ∃ dd, fetchGroupData igd ogd isg osg nm = .ok dd) →
      ∃ out, getDataNames igd ogd isg osg names = .ok out ∧
        (∀ nm ∈ names, ∀ dd, fetchGroupData igd ogd isg osg nm = .ok dd →
          ∀ k ∈ Dict.keysList dd, k ∈ Dict.keysList out) ∧
        (∀ k, k ∈ Dict.keysList out →
          ∃ nm, nm ∈ names ∧ ∃ dd, fetchGroupData igd ogd isg osg nm = .ok dd ∧
            k ∈ Dict.keysList dd)) ∧
    (∀ pre bad post, names = pre ++ bad :: post →
      (∀ nm ∈ pre, ∃ dd, fetchGroupData igd ogd isg osg nm = .ok dd) →
      Dict.find? isg bad = none → Dict.find? osg bad = none →
      getDataNames igd ogd isg osg names = .error (.keyError bad)) := by
  constructor
  · intro hres
    obtain ⟨out, hout, -, hcover, hconv⟩ := getDataNamesLoop_ok igd ogd isg osg names [] hres
    refine ⟨out, hout, hcover, ?_⟩
    intro k hk
    rcases hconv k hk with hacc | h
    · cases hacc
    · exact h
  · intro pre bad post hsplit hres hbadi hbado
    rw [hsplit]
    exact getDataNamesLoop_err igd ogd isg osg bad post hbadi hbado pre [] hres

/-!
## Pulsed-repump continuous PLE controller

Embedding of `PLEControllerPulsedRepumpContinuous.configure_sequence`
(`src/qdlutils/applications/qdlple2/application_controller.py`, lines
100-235).  The numeric model is exact rational arithmetic; at the concrete
inputs considered here the Python float computations agree (no `round` call
lands near a representation boundary or a tie).
-/

/-- Python 3 `round` to the nearest integer, ties to even (banker's
rounding), on exact rationals. -/
def pyRound (q : ℚ) : ℤ :=
  let f := Int.floor q
  let frac := q - f
  if frac < 1 / 2 then f
  else if 1 / 2 < frac then f + 1
  else if f % 2 = 0 then f else f + 1

theorem pyRound_intCast (n : ℤ) : pyRound ((n : ℚ)) = n := by
  simp only [pyRound, Int.floor_intCast, sub_self]
  norm_num

/-- numpy `np.linspace(start, stop, num, endpoint=False)`:
`start + i * (stop - start) / num` for `i < num`. -/
def linspaceNoEnd (start stop : ℚ) (num : Nat) : List ℚ :=
  (List.range num).map (fun (i : Nat) => start + (i : ℚ) * ((stop - start) / (num : ℚ)))

/-- numpy `np.repeat(a, repeats)`: every element repeated `repeats` times in
place. -/
def npRepeat (l : List ℚ) (r : Nat) : List ℚ :=
  (l.map (fun x => List.replicate r x)).flatten

theorem npRepeat_cons (x : ℚ) (xs : List ℚ) (r : Nat) :
    npRepeat (x :: xs) r = List.replicate r x ++ npRepeat xs r := by
  simp [npRepeat]

theorem npRepeat_length (l : List ℚ) (r : Nat) :
    (npRepeat l r).length = l.length * r := by
  induction l with
  | nil => simp [npRepeat]
  | cons x xs ih =>
    rw [npRepeat_cons, List.length_append, List.length_replicate, ih,
      List.length_cons]
    ring

theorem replicateGetD (x : ℚ) (n i : Nat) (d : ℚ) (h : i < n) :
    (List.replicate n x).getD i d = x := by
  rw [List.getD_eq_getElem _ _ (by simpa using h)]
  exact List.getElem_replicate x (by simpa using h)

theorem npRepeat_getD (l : List ℚ) (r q s : Nat) (d : ℚ)
    (hq : q < l.length) (hs : s < r) :
    (npRepeat l r).getD (q * r + s) d = l.getD q d := by
  induction l generalizing q with
  | nil => simp at hq
  | cons x xs ih =>
    rw [npRepeat_cons]
    cases q with
    | zero =>
      rw [List.getD_append _ _ _ _ (by simpa using hs)]
      simpa using replicateGetD x r s d hs
    | succ q' =>
      rw [List.getD_append_right _ _ _ _ (by simp; nlinarith)]
      have harith : (q' + 1) * r + s - (List.replicate r x).length = q' * r + s := by
        simp [List.length_replicate]
        ring_nf
        omega
      rw [harith, List.getD_cons_succ]
      exact ih q' (by simpa using hq)

theorem linspaceNoEnd_getD (start stop : ℚ) (num i : Nat) (d : ℚ) (h : i < num) :
    (linspaceNoEnd start stop num).getD i d = start + i * ((stop - start) / num) := by
  unfold linspaceNoEnd
  rw [rangeMap_getD _ num i d h]

theorem linspaceNoEnd_length (start stop : ℚ) (num : Nat) :
    (linspaceNoEnd start stop num).length = num := by
  simp [linspaceNoEnd]

/-- The required parameters of
`NidaqSequencerAOVoltageGroup._validate_data` (nidaqsequenceroutputgroup.py
lines 283-287): both are positional with no defaults. -/
def aoValidateDataRequired : List String := ["output_name", "data"]

/-- The scan-parameter validation prologue of `configure_sequence` (lines
139-158), as written in the source: when `max > min` holds, line 140 calls
`self.outputs[self.scan_laser_id]._validate_data(data=min)`, omitting the
required `output_name` parameter, so Python's call binding raises
`TypeError` there; with `max ≤ min` a `ValueError` is raised instead.  The
`type(...) is not int` halves of the pixel-count checks are statically true
here because the counts are typed `Int`. -/
def configureSequenceContValidation (vmin vmax : ℚ)
    (nPixelsUp nPixelsDown nSubpixels : Int)
    (timeUp timeDown timeRepump : ℚ) : Py Unit := do
  if vmax > vmin then
    pyBindRequired aoValidateDataRequired ["data"]
  else
    throw (.valueError "max less than min")
  if nPixelsUp < 1 then throw (.valueError "n_pixels_up invalid")
  if nPixelsDown < 1 then throw (.valueError "n_pixels_down invalid")
  if nSubpixels < 1 then throw (.valueError "n_subpixels invalid")
  if ¬ (timeUp > 0) then throw (.valueError "time_up invalid")
  if ¬ (timeDown > 0) then throw (.valueError "time_down invalid")
  if timeRepump < 0 then throw (.valueError "time_repump invalid")

/-- The schedule computed by `configure_sequence` (lines 160-235). -/
structure PLEConfig where
  cyclesPerSubpixelUp : Int
  cyclesPerSubpixelDown : Int
  cyclesPerRepump : Int
  nSamplesRepump : Int
  nSamplesUpscan : Int
  nSamplesDownscan : Int
  nSamplesScan : Int
  nSamplesTotal : Int
  scanLaserOutput : List ℚ
  repumpLaserOutput : List ℚ
  timeout : ℚ
  deriving Repr

/-- The schedule-and-waveform computation of `configure_sequence` (lines
160-235), which in the source follows the validation prologue: clock-cycle
counts per subpixel and for the repump via Python `round`, the per-segment
sample counts, the concatenated repump/up-sweep/down-sweep scan-laser
waveform (`np.linspace` with `endpoint=False`, each subpixel value held for
its cycle count via `np.repeat`, the repump segment held at `min`), the
repump-laser waveform, and the timeout with its one-second margin.  The
`Int.toNat` casts on the cycle counts are exact in context: the validation
prologue forces all sweep times and counts positive. -/
def configureSequenceContComputation (clockRate repumpOn repumpOff : ℚ)
    (vmin vmax : ℚ) (nPixelsUp nPixelsDown nSubpixels : Int)
    (timeUp timeDown timeRepump : ℚ) : PLEConfig :=
  let nSubpixelsUp : Int := nSubpixels * nPixelsUp
  let nSubpixelsDown : Int := nSubpixels * nPixelsDown
  let timePerSubpixelUp : ℚ := timeUp / (nSubpixelsUp : ℚ)
  let timePerSubpixelDown : ℚ := timeDown / (nSubpixelsDown : ℚ)
  let cyclesUp := pyRound (timePerSubpixelUp * clockRate)
  let cyclesDown := pyRound (timePerSubpixelDown * clockRate)
  let cyclesRepump := pyRound (timeRepump * clockRate)
  let nRepump := cyclesRepump
  let nUpscan := cyclesUp * nPixelsUp * nSubpixels
  let nDownscan := cyclesDown * nPixelsDown * nSubpixels
  let subpixelValuesUp := linspaceNoEnd vmin vmax (nPixelsUp * nSubpixels).toNat
  let subpixelValuesDown := linspaceNoEnd vmax vmin (nPixelsDown * nSubpixels).toNat
  let scanSamplesUp := npRepeat subpixelValuesUp cyclesUp.toNat
  let scanSamplesDown := npRepeat subpixelValuesDown cyclesDown.toNat
  let scanSamplesRepump := List.replicate nRepump.toNat vmin
  { cyclesPerSubpixelUp := cyclesUp
    cyclesPerSubpixelDown := cyclesDown
    cyclesPerRepump := cyclesRepump
    nSamplesRepump := nRepump
    nSamplesUpscan := nUpscan
    nSamplesDownscan := nDownscan
    nSamplesScan := nUpscan + nDownscan
    nSamplesTotal := nRepump + nUpscan + nDownscan
    scanLaserOutput := scanSamplesRepump ++ scanSamplesUp ++ scanSamplesDown
    repumpLaserOutput := List.replicate nRepump.toNat repumpOn ++
      List.replicate (nUpscan + nDownscan).toNat repumpOff
    timeout := ((nRepump + nUpscan + nDownscan : Int) : ℚ) / clockRate + 1 }

/-- `configure_sequence` (lines 100-235): the validation prologue runs
first; the schedule computation follows it. -/
def configureSequenceCont (clockRate repumpOn repumpOff : ℚ)
    (vmin vmax : ℚ) (nPixelsUp nPixelsDown nSubpixels : Int)
    (timeUp timeDown timeRepump : ℚ) : Py PLEConfig := do
  configureSequenceContValidation vmin vmax nPixelsUp nPixelsDown nSubpixels
    timeUp timeDown timeRepump
  pure (configureSequenceContComputation clockRate repumpOn repumpOff vmin vmax
    nPixelsUp nPixelsDown nSubpixels timeUp timeDown timeRepump)

/-- C9: at the claimed concrete scenario (`min = -1`, `max = 1`,
`n_pixels_up = 10`, `n_pixels_down = 5`, `n_subpixels = 2`, `time_up = 1`,
`time_down = 1/2`, `time_repump = 0`, `clock_rate = 1000`), the code as
written raises `TypeError` inside the bounds-validation call of line 140
(`_validate_data(data=min)` omits the required `output_name` argument)
before computing any of the claimed quantities; the schedule computation
that follows the validation in the source — unreachable as written — yields
exactly the claimed values: 50 cycles per subpixel on both sweeps, 1000
up-scan samples, 500 down-scan samples, 1500 non-repump samples, a first
up-sweep sample of `-1` and a last pre-down-sweep sample of `9/10 < 1`. -/
theorem configureSequenceCont_typeError_bug :
    configureSequenceCont 1000 1 0 (-1) 1 10 5 2 1 (1 / 2) 0 = .error .typeError ∧
    (configureSequenceContComputation 1000 1 0 (-1) 1 10 5 2 1 (1 / 2) 0).cyclesPerSubpixelUp = 50 ∧
    (configureSequenceContComputation 1000 1 0 (-1) 1 10 5 2 1 (1 / 2) 0).nSamplesUpscan = 1000 ∧
    (configureSequenceContComputation 1000 1 0 (-1) 1 10 5 2 1 (1 / 2) 0).cyclesPerSubpixelDown = 50 ∧
    (configureSequenceContComputation 1000 1 0 (-1) 1 10 5 2 1 (1 / 2) 0).nSamplesDownscan = 500 ∧
    (configureSequenceContComputation 1000 1 0 (-1) 1 10 5 2 1 (1 / 2) 0).nSamplesScan = 1500 ∧
    (configureSequenceContComputation 1000 1 0 (-1) 1 10 5 2 1 (1 / 2) 0).nSamplesRepump = 0 ∧
    (configureSequenceContComputation 1000 1 0 (-1) 1 10 5 2 1 (1 / 2) 0).scanLaserOutput.getD 0 0 = -1 ∧
    (configureSequenceContComputation 1000 1 0 (-1) 1 10 5 2 1 (1 / 2) 0).scanLaserOutput.getD 999 0 = 9 / 10 ∧
    (9 : ℚ) / 10 < 1 := by
  have hcu : pyRound ((1 : ℚ) / (((2 * 10 : Int) : ℚ)) * 1000) = 50 := by
    have h : (1 : ℚ) / (((2 * 10 : Int) : ℚ)) * 1000 = ((50 : ℤ) : ℚ) := by norm_num
    rw [h, pyRound_intCast]
  have hcd : pyRound ((1 : ℚ) / 2 / (((2 * 5 : Int) : ℚ)) * 1000) = 50 := by
    have h : (1 : ℚ) / 2 / (((2 * 5 : Int) : ℚ)) * 1000 = ((50 : ℤ) : ℚ) := by norm_num
    rw [h, pyRound_intCast]
  have hcr : pyRound ((0 : ℚ) * 1000) = 0 := by
    have h : (0 : ℚ) * 1000 = ((0 : ℤ) : ℚ) := by norm_num
    rw [h, pyRound_intCast]
  have hval : configureSequenceContValidation (-1) 1 10 5 2 1 (1 / 2) 0 =
      .error .typeError := by
    rw [configureSequenceContValidation]
    rw [if_pos (by norm_num : (1 : ℚ) > -1)]
    rfl
  refine ⟨?_, ?_, ?_, ?_, ?_, ?_, ?_, ?_, ?_, by norm_num⟩
  · rw [configureSequenceCont, hval]
    rfl
  · show pyRound ((1 : ℚ) / (((2 * 10 : Int) : ℚ)) * 1000) = 50
    exact hcu
  · show pyRound ((1 : ℚ) / (((2 * 10 : Int) : ℚ)) * 1000) * 10 * 2 = 1000
    rw [hcu]
    norm_num
  · show pyRound ((1 : ℚ) / 2 / (((2 * 5 : Int) : ℚ)) * 1000) = 50
    exact hcd
  · show pyRound ((1 : ℚ) / 2 / (((2 * 5 : Int) : ℚ)) * 1000) * 5 * 2 = 500
    rw [hcd]
    norm_num
  · show pyRound ((1 : ℚ) / (((2 * 10 : Int) : ℚ)) * 1000) * 10 * 2 +
      pyRound ((1 : ℚ) / 2 / (((2 * 5 : Int) : ℚ)) * 1000) * 5 * 2 = 1500
    rw [hcu, hcd]
    norm_num
  · show pyRound ((0 : ℚ) * 1000) = 0
    exact hcr
  · show (List.replicate (pyRound ((0 : ℚ) * 1000)).toNat (-1 : ℚ) ++
      npRepeat (linspaceNoEnd (-1) 1 ((10 * 2 : Int)).toNat)
        (pyRound ((1 : ℚ) / (((2 * 10 : Int) : ℚ)) * 1000)).toNat ++
      npRepeat (linspaceNoEnd 1 (-1) ((5 * 2 : Int)).toNat)
        (pyRound ((1 : ℚ) / 2 / (((2 * 5 : Int) : ℚ)) * 1000)).toNat).getD 0 0 = -1
    rw [hcr, hcu, hcd]
    rw [show (0 : Int).toNat = 0 from rfl, show (50 : Int).toNat = 50 from rfl,
      show ((10 * 2 : Int)).toNat = 20 from rfl, show ((5 * 2 : Int)).toNat = 10 from rfl,
      List.replicate_zero, List.nil_append]
    rw [List.getD_append _ _ _ _
      (by rw [npRepeat_length, linspaceNoEnd_length]; norm_num)]
    rw [show (0 : Nat) = 0 * 50 + 0 from by norm_num,
      npRepeat_getD _ _ _ _ _ (by rw [linspaceNoEnd_length]; norm_num) (by norm_num),
      linspaceNoEnd_getD _ _ _ _ _ (by norm_num)]
    norm_num
  · show (List.replicate (pyRound ((0 : ℚ) * 1000)).toNat (-1 : ℚ) ++
      npRepeat (linspaceNoEnd (-1) 1 ((10 * 2 : Int)).toNat)
        (pyRound ((1 : ℚ) / (((2 * 10 : Int) : ℚ)) * 1000)).toNat ++
      npRepeat (linspaceNoEnd 1 (-1) ((5 * 2 : Int)).toNat)
        (pyRound ((1 : ℚ) / 2 / (((2 * 5 : Int) : ℚ)) * 1000)).toNat).getD 999 0 = 9 / 10
    rw [hcr, hcu, hcd]
    rw [show (0 : Int).toNat = 0 from rfl, show (50 : Int).toNat = 50 from rfl,
      show ((10 * 2 : Int)).toNat = 20 from rfl, show ((5 * 2 : Int)).toNat = 10 from rfl,
      List.replicate_zero, List.nil_append]
    rw [List.getD_append _ _ _ _
      (by rw [npRepeat_length, linspaceNoEnd_length]; norm_num)]
    rw [show (999 : Nat) = 19 * 50 + 49 from by norm_num,
      npRepeat_getD _ _ _ _ _ (by rw [linspaceNoEnd_length]; norm_num) (by norm_num),
      linspaceNoEnd_getD _ _ _ _ _ (by norm_num)]
    norm_num

/-!
## `process_data` of the pulsed-repump continuous PLE controller

Embedding of the default `'first'` branch of
`PLEControllerPulsedRepumpContinuous.process_data`
(`src/qdlutils/applications/qdlple2/application_controller.py`, lines
253-283), taken when a stream's name is absent from `instructions` or maps
to `'first'`.
-/

theorem strAppend_right_inj {s t₁ t₂ : String} (h : s ++ t₁ = s ++ t₂) : t₁ = t₂ := by
  apply String.ext
  have hd := congrArg String.data h
  rw [String.data_append, String.data_append] at hd
  exact List.append_cancel_left hd

theorem strAppend_ne {s t₁ t₂ : String} (h : t₁ ≠ t₂) : s ++ t₁ ≠ s ++ t₂ :=
  fun hh => h (strAppend_right_inj hh)

theorem strAppend_ne_self {s t : String} (h : t ≠ "") : s ++ t ≠ s := by
  intro hh
  apply h
  apply @strAppend_right_inj s t ""
  rw [hh, String.append_empty]

/-- numpy `arr.reshape(rows, cols)` of a 1-D array, as a list of rows:
`ValueError` when the element count does not match. -/
def npReshapeRows (rows cols : Nat) (l : List ℚ) : Py (List (List ℚ)) :=
  if l.length = rows * cols then
    .ok ((List.range rows).map (fun i => pySlice l (i * cols) (i * cols + cols)))
  else .error (.valueError "cannot reshape array")

/-- The loop body of `process_data` for one named stream under the default
`'first'` instruction (lines 256-283).  Following the source, the down-sweep
slice at line 264 is `data[name][n_samples_repump : n_samples_repump +
n_samples_upscan]` — the same expression as the up-sweep slice of line 260 —
and both reshapes use `n_subpixels_up` rows by `cycles_per_subpixel_up`
columns; the pixel reduction of lines 277-280 reshapes both the up and the
down subpixel arrays with `n_pixels_up` rows by `n_subpixels` columns.
numpy's `.squeeze()` on the 1-D column vectors is the identity here and is
not modelled. -/
def processDataFirstEntry (nRep nUp nSubUp cycUp nPixUp nSubpix : Nat)
    (name : String) (arr : List ℚ) : Py (Dict (List ℚ)) := do
  let subpixelDataUp := pySlice arr nRep (nRep + nUp)
  let upReshaped ← npReshapeRows nSubUp cycUp subpixelDataUp
  let subpixelDataDown := pySlice arr nRep (nRep + nUp)
  let downReshaped ← npReshapeRows nSubUp cycUp subpixelDataDown
  let subUp := upReshaped.map (fun row => row.getD 0 0)
  let subDown := downReshaped.map (fun row => row.getD 0 0)
  let d := Dict.setItem [] (name ++ "_subpixel_up") subUp
  let d := Dict.setItem d (name ++ "_subpixel_down") subDown
  let d := Dict.setItem d (name ++ "_subpixel") (subUp ++ subDown)
  let upPixels ← npReshapeRows nPixUp nSubpix subUp
  let downPixels ← npReshapeRows nPixUp nSubpix subDown
  let pixUp := upPixels.map (fun row => row.getD 0 0)
  let pixDown := downPixels.map (fun row => row.getD 0 0)
  let d := Dict.setItem d (name ++ "_up") pixUp
  let d := Dict.setItem d (name ++ "_down") pixDown
  let d := Dict.setItem d name (pixUp ++ pixDown)
  pure d

/-- C10: whenever `process_data`'s `'first'` branch succeeds on a named
stream, the `<name>_subpixel_down` and `<name>_down` entries of the result
are equal — entry for entry — to `<name>_subpixel_up` and `<name>_up`
respectively: both are computed from the up-sweep segment
`[n_samples_repump : n_samples_repump + n_samples_upscan]` of the raw
stream with up-sweep reshape dimensions, and never reflect down-sweep
samples. -/
theorem processDataFirst_down_eq_up (nRep nUp nSubUp cycUp nPixUp nSubpix : Nat)
    (name : String) (arr : List ℚ) (out : Dict (List ℚ))
    (h : processDataFirstEntry nRep nUp nSubUp cycUp nPixUp nSubpix name arr = .ok out) :
    Dict.find? out (name ++ "_subpixel_down") = Dict.find? out (name ++ "_subpixel_up") ∧
    (Dict.find? out (name ++ "_subpixel_down")).isSome = true ∧
    Dict.find? out (name ++ "_down") = Dict.find? out (name ++ "_up") ∧
    (Dict.find? out (name ++ "_down")).isSome = true := by
  simp only [processDataFirstEntry] at h
  cases h1 : npReshapeRows nSubUp cycUp (pySlice arr nRep (nRep + nUp)) with
  | error e =>
    simp only [h1, exceptBind_err] at h
    cases h
  | ok upReshaped =>
    simp only [h1, exceptBind_ok] at h
    cases h2 : npReshapeRows nPixUp nSubpix (upReshaped.map (fun row => row.getD 0 0)) with
    | error e =>
      simp only [h2, exceptBind_err] at h
      cases h
    | ok upPixels =>
      simp only [h2, exceptBind_ok] at h
      simp only [pure, Except.pure] at h
      cases h
      set subUp := upReshaped.map (fun row => row.getD 0 0) with hsubUp
      set pixUp := upPixels.map (fun row => row.getD 0 0) with hpixUp
      have hne1 : name ++ "_subpixel_up" ≠ name ++ "_subpixel_down" :=
        strAppend_ne (by decide)
      have hne2 : name ++ "_subpixel_up" ≠ name ++ "_subpixel" :=
        strAppend_ne (by decide)
      have hne3 : name ++ "_subpixel_down" ≠ name ++ "_subpixel" :=
        strAppend_ne (by decide)
      have hne4 : name ++ "_subpixel_up" ≠ name ++ "_up" := strAppend_ne (by decide)
      have hne5 : name ++ "_subpixel_down" ≠ name ++ "_up" := strAppend_ne (by decide)
      have hne6 : name ++ "_subpixel" ≠ name ++ "_up" := strAppend_ne (by decide)
      have hne7 : name ++ "_subpixel_up" ≠ name ++ "_down" := strAppend_ne (by decide)
      have hne8 : name ++ "_subpixel_down" ≠ name ++ "_down" := strAppend_ne (by decide)
      have hne9 : name ++ "_subpixel" ≠ name ++ "_down" := strAppend_ne (by decide)
      have hne10 : name ++ "_up" ≠ name ++ "_down" := strAppend_ne (by decide)
      have hne11 : name ++ "_subpixel_up" ≠ name := strAppend_ne_self (by decide)
      have hne12 : name ++ "_subpixel_down" ≠ name := strAppend_ne_self (by decide)
      have hne13 : name ++ "_subpixel" ≠ name := strAppend_ne_self (by decide)
      have hne14 : name ++ "_up" ≠ name := strAppend_ne_self (by decide)
      have hne15 : name ++ "_down" ≠ name := strAppend_ne_self (by decide)
      simp only [Dict.setItem, Dict.find?, if_neg hne1, if_neg hne2, if_neg hne3,
        if_neg hne4, if_neg hne5, if_neg hne6, if_neg hne7, if_neg hne8, if_neg hne9,
        if_neg hne10, if_neg hne11, if_neg hne12, if_neg hne13, if_neg hne14,
        if_neg hne15, eq_self_iff_true, if_true, Option.isSome_some]
      exact ⟨trivial, trivial, trivial, trivial⟩

/-- Witness for `processDataFirst_down_eq_up` on a concrete stream. -/
theorem processDataFirst_down_eq_up_witness :
    Dict.find? [("counts" ++ "_subpixel_up", [(1 : ℚ), 3]),
        ("counts" ++ "_subpixel_down", [1, 3]),
        ("counts" ++ "_subpixel", [1, 3, 1, 3]),
        ("counts" ++ "_up", [1]), ("counts" ++ "_down", [1]),
        ("counts", [1, 1])] ("counts" ++ "_subpixel_down") =
      Dict.find? [("counts" ++ "_subpixel_up", [(1 : ℚ), 3]),
        ("counts" ++ "_subpixel_down", [1, 3]),
        ("counts" ++ "_subpixel", [1, 3, 1, 3]),
        ("counts" ++ "_up", [1]), ("counts" ++ "_down", [1]),
        ("counts", [1, 1])] ("counts" ++ "_subpixel_up") ∧
    (Dict.find? [("counts" ++ "_subpixel_up", [(1 : ℚ), 3]),
        ("counts" ++ "_subpixel_down", [1, 3]),
        ("counts" ++ "_subpixel", [1, 3, 1, 3]),
        ("counts" ++ "_up", [1]), ("counts" ++ "_down", [1]),
        ("counts", [1, 1])] ("counts" ++ "_subpixel_down")).isSome = true ∧
    Dict.find? [("counts" ++ "_subpixel_up", [(1 : ℚ), 3]),
        ("counts" ++ "_subpixel_down", [1, 3]),
        ("counts" ++ "_subpixel", [1, 3, 1, 3]),
        ("counts" ++ "_up", [1]), ("counts" ++ "_down", [1]),
        ("counts", [1, 1])] ("counts" ++ "_down") =
      Dict.find? [("counts" ++ "_subpixel_up", [(1 : ℚ), 3]),
        ("counts" ++ "_subpixel_down", [1, 3]),
        ("counts" ++ "_subpixel", [1, 3, 1, 3]),
        ("counts" ++ "_up", [1]), ("counts" ++ "_down", [1]),
        ("counts", [1, 1])] ("counts" ++ "_up") ∧
    (Dict.find? [("counts" ++ "_subpixel_up", [(1 : ℚ), 3]),
        ("counts" ++ "_subpixel_down", [1, 3]),
        ("counts" ++ "_subpixel", [1, 3, 1, 3]),
        ("counts" ++ "_up", [1]), ("counts" ++ "_down", [1]),
        ("counts", [1, 1])] ("counts" ++ "_down")).isSome = true :=
  processDataFirst_down_eq_up 1 4 2 2 1 2 "counts" [0, 1, 2, 3, 4]
    [("counts" ++ "_subpixel_up", [(1 : ℚ), 3]),
      ("counts" ++ "_subpixel_down", [1, 3]),
      ("counts" ++ "_subpixel", [1, 3, 1, 3]),
      ("counts" ++ "_up", [1]), ("counts" ++ "_down", [1]),
      ("counts", [1, 1])] rfl

/-!
## `run_sequence` and `get_data` on a full sequencer

Embedding of `NidaqSequencer.run_sequence` (nidaqsequencer.py lines 70-177,
with `_parse_sequence_params` lines 338-401), the AI-voltage input group
(`NidaqSequencerAIVoltageGroup`, nidaqsequencerinputgroup.py lines 107-199)
and the AO-voltage output group (`NidaqSequencerAOVoltageGroup`,
nidaqsequenceroutputgroup.py lines 162-309), and the no-argument form of
`get_data` (lines 179-238).  The hardware reader is abstracted as
`raw : String → Nat → ℚ`: the voltage stream each input source's channel
delivers at each clock cycle; hardware task commits, starts, waits and
writes succeed.  Each group's `build` call carries its Python call binding
(the call sites omit the required `clock_terminal`, so the binding raises
`TypeError`); the `build`/`readout` bodies are modelled together as the
data they deposit in the group's `data` attribute.
-/

/-- A Python `for` loop running a fallible statement for each element:
the first exception aborts the loop and propagates. -/
def pyForEach {α : Type} (f : α → Py Unit) : List α → Py Unit
  | [] => .ok ()
  | a :: rest =>
    match f a with
    | .ok _ => pyForEach f rest
    | .error e => .error e

theorem pyForEach_ok {α : Type} (f : α → Py Unit) (l : List α)
    (h : ∀ a ∈ l, f a = .ok ()) : pyForEach f l = .ok () := by
  induction l with
  | nil => rfl
  | cons a rest ih =>
    simp only [pyForEach, h a (List.mem_cons_self a rest)]
    exact ih (fun a' ha' => h a' (List.mem_cons_of_mem a ha'))

/-- A Python list comprehension over a fallible expression: the first
exception propagates. -/
def pyMapList {α β : Type} (f : α → Py β) : List α → Py (List β)
  | [] => .ok []
  | a :: rest =>
    match f a with
    | .error e => .error e
    | .ok b =>
      match pyMapList f rest with
      | .error e => .error e
      | .ok bs => .ok (b :: bs)

theorem pyMapList_ok {α β : Type} (f : α → Py β) (g : α → β) (l : List α)
    (h : ∀ a ∈ l, f a = .ok (g a)) : pyMapList f l = .ok (l.map g) := by
  induction l with
  | nil => rfl
  | cons a rest ih =>
    simp only [pyMapList, h a (List.mem_cons_self a rest),
      ih (fun a' ha' => h a' (List.mem_cons_of_mem a ha')), List.map_cons]

theorem pyMapList_head_err {α β : Type} (f : α → Py β) (a : α) (rest : List α)
    (e : PyErr) (h : f a = .error e) : pyMapList f (a :: rest) = .error e := by
  simp only [pyMapList, h]

/-- A Python `for` loop threading a fallible accumulator update. -/
def pyFoldList {α β : Type} (f : β → α → Py β) : β → List α → Py β
  | b, [] => .ok b
  | b, a :: rest =>
    match f b a with
    | .error e => .error e
    | .ok b' => pyFoldList f b' rest

/-- `NidaqSequencerAOVoltageGroup._validate_data` (lines 283-309) on a 1-D
array: `ValueError` when any sample is below the channel's `min` or above
its `max` (the `TypeError` branch cannot fire on numeric arrays). -/
def aoValidate (cmin cmax : ℚ) (data : List ℚ) : Py Unit :=
  if data.any (fun x => decide (x < cmin)) then .error (.valueError "data below channel minimum")
  else if data.any (fun x => decide (x > cmax)) then .error (.valueError "data above channel maximum")
  else .ok ()

theorem aoValidate_ok (cmin cmax : ℚ) (data : List ℚ)
    (h : ∀ x ∈ data, cmin ≤ x ∧ x ≤ cmax) : aoValidate cmin cmax data = .ok () := by
  have h1 : data.any (fun x => decide (x < cmin)) = false := by
    rw [List.any_eq_false]
    intro x hx
    simp only [decide_eq_true_eq, not_lt]
    exact (h x hx).1
  have h2 : data.any (fun x => decide (x > cmax)) = false := by
    rw [List.any_eq_false]
    intro x hx
    simp only [decide_eq_true_eq, gt_iff_lt, not_lt]
    exact (h x hx).2
  simp only [aoValidate, h1, h2, Bool.false_eq_true, if_false]

/-- The per-output-group membership-and-validity loop of
`_parse_sequence_params` (lines 363-373): every source of the group must be
a key of `output_data` (`ValueError` otherwise) and its data must pass the
group's `_validate_data`, whose `TypeError`/`ValueError` is re-raised as
`ValueError`. -/
def validateGroupOutputData (channels : List (String × ℚ × ℚ)) (outputData : Dict (List ℚ)) :
    Py Unit :=
  pyForEach
    (fun ch =>
      match Dict.find? outputData ch.1 with
      | none => .error (.valueError "output data not defined")
      | some d =>
        match aoValidate ch.2.1 ch.2.2 d with
        | .ok _ => .ok ()
        | .error _ => .error (.valueError "output data invalid"))
    channels

/-- The shape check of `_parse_sequence_params` (lines 375-382): within a
group all data shapes must coincide (`set(shapes)` of size at most one).
The data model is 1-D, so a shape is its length and the
`len(shapes[0]) > 1` dimensionality check cannot fire — but `shapes[0]`
itself raises `IndexError` on a group with no channels. -/
def checkGroupShapes (channels : List (String × ℚ × ℚ)) (outputData : Dict (List ℚ)) :
    Py Unit :=
  let shapes := channels.map (fun ch => ((Dict.find? outputData ch.1).getD []).length)
  if 1 < shapes.dedup.length then .error (.valueError "group data shapes do not match")
  else
    match shapes with
    | [] => .error .indexError
    | _ :: _ => .ok ()

/-- The per-input-source loop of `_parse_sequence_params` (lines 385-399):
every source needs a non-negative `input_samples` entry; absent readout
delays are set to 0 in the (mutated and returned) dictionary, negative ones
raise. -/
def parseInputGroup (sources : List String) (inputSamples : Dict Int) (rd : Dict Int) :
    Py (Dict Int) :=
  pyFoldList
    (fun rd src =>
      match Dict.find? inputSamples src with
      | none => .error (.valueError "input samples undefined")
      | some n =>
        if n < 0 then .error (.valueError "input samples invalid")
        else
          match Dict.find? rd src with
          | none => .ok (Dict.setItem rd src 0)
          | some d =>
            if d < 0 then .error (.valueError "negative readout delay") else .ok rd)
    rd sources

/-- `NidaqSequencer._parse_sequence_params` (lines 338-401): output-group
validation, then the input-source pass returning the completed
readout-delay dictionary. -/
def parseSequenceParams (m : SequencerModel) (outputData : Dict (List ℚ))
    (inputSamples : Dict Int) (readoutDelays : Dict Int) : Py (Dict Int) := do
  pyForEach
    (fun g => do
      validateGroupOutputData g.2 outputData
      checkGroupShapes g.2 outputData)
    m.outputGroups
  pyFoldList (fun rd g => parseInputGroup g.2 inputSamples rd) readoutDelays m.inputGroups

/-- The data an AI-voltage group's `build`/`readout` pair deposits
(nidaqsequencerinputgroup.py lines 116-199): the finite task runs for
`max(n_samples[c] + readout_delays[c])` samples; the buffer row of each
source is sliced to `[d : d + n]`.  The dictionary lookups of `build`
cannot fail after `_parse_sequence_params`; `Int.toNat` is exact because
the parse rejected negative values. -/
def aiVoltageReadoutData (sources : List String) (inputSamples rd : Dict Int)
    (raw : String → Nat → ℚ) : Py (Dict (List ℚ)) := do
  let pairs ← pyMapList
    (fun s => do
      let n ← Dict.getItem inputSamples s
      let d ← Dict.getItem rd s
      pure (s, n.toNat, d.toNat))
    sources
  let nTask := listMaxNat (pairs.map (fun p => p.2.1 + p.2.2))
  pure (pairs.map (fun p =>
    (p.1, pySlice ((List.range nTask).map (raw p.1)) p.2.2 (p.2.2 + p.2.1))))

/-- The data an AO-voltage group's `build` deposits
(nidaqsequenceroutputgroup.py lines 189-256): each channel's data is
validated once more, then echoed into the group's `data` attribute
(`{name: data[name] for name in self.channels_config}`); the write to the
hardware task is abstracted as succeeding. -/
def aoVoltageBuildData (channels : List (String × ℚ × ℚ)) (outputData : Dict (List ℚ)) :
    Py (Dict (List ℚ)) := do
  pyForEach
    (fun ch => do
      let d ← Dict.getItem outputData ch.1
      aoValidate ch.2.1 ch.2.2 d)
    channels
  pure (channels.map (fun ch => (ch.1, (Dict.find? outputData ch.1).getD [])))

/-- All output channel configs of the sequencer, in registration order. -/
def allOutputChannels (m : SequencerModel) : List (String × ℚ × ℚ) :=
  (m.outputGroups.map Prod.snd).flatten

/-- The soft-start loop of `run_sequence` (lines 118-122): for every name
flagged true that resolves through `output_source_group`, the channel is
set to the first sample of its data (`set_output` → group `set`, which
validates the scalar and performs a throwaway hardware write, abstracted as
succeeding); `output_data[name]` raises `KeyError` when absent and
`[0]` raises `IndexError` on empty data. -/
def softStartPhase (m : SequencerModel) (softStart : Dict Bool)
    (outputData : Dict (List ℚ)) : Py Unit :=
  pyForEach
    (fun kv =>
      match (allOutputChannels m).find? (fun ch => decide (ch.1 = kv.1)), kv.2 with
      | some cfg, true => do
        let d ← Dict.getItem outputData kv.1
        match d with
        | [] => .error .indexError
        | x :: _ => aoValidate cfg.2.1 cfg.2.2 [x]
      | _, _ => .ok ())
    softStart

/-- The per-group data dictionaries held by the sequencer's groups after a
completed `run_sequence`. -/
structure RunResult where
  inputData : Dict (Dict (List ℚ))
  outputData : Dict (Dict (List ℚ))

/-- One iteration of the input-group loop of `run_sequence` (lines
139-149): the `build` call is bound first — the call site at lines 141-146
omits the required `clock_terminal` parameter, so the binding raises
`TypeError` before the build body runs — and only then would the group's
build/readout deposit its data. -/
def inputGroupBuild (inputSamples rd : Dict Int) (raw : String → Nat → ℚ)
    (g : String × List String) : Py (String × Dict (List ℚ)) := do
  pyBindRequired inputBuildRequired inputBuildCallKwargs
  let dd ← aiVoltageReadoutData g.2 inputSamples rd raw
  pure (g.1, dd)

/-- One iteration of the output-group loop of `run_sequence` (lines
151-158): the `build` call is bound first — the call site at lines 153-157
omits the required `clock_terminal` parameter, so the binding raises
`TypeError` before the build body runs — and only then would the group's
build deposit its echoed data. -/
def outputGroupBuild (outputData : Dict (List ℚ))
    (g : String × List (String × ℚ × ℚ)) : Py (String × Dict (List ℚ)) := do
  pyBindRequired outputBuildRequired outputBuildCallKwargs
  let dd ← aoVoltageBuildData g.2 outputData
  pure (g.1, dd)

/-- `NidaqSequencer.run_sequence` (lines 70-177), at the level of the data
deposited in the groups: parameter parsing, the soft-start pass, then the
input-group and output-group loops, each iteration binding the group's
`build` call as written at the call site.  The clock task, task starts,
completion waits and closes have no effect on the data and are
trace-modelled separately in `runSequenceTrace`. -/
def runSequence (m : SequencerModel) (clockRate : ℚ) (outputData : Dict (List ℚ))
    (inputSamples : Dict Int) (readoutDelays : Dict Int) (softStart : Dict Bool)
    (raw : String → Nat → ℚ) : Py RunResult := do
  let rd ← parseSequenceParams m outputData inputSamples readoutDelays
  softStartPhase m softStart outputData
  let inData ← pyMapList (inputGroupBuild inputSamples rd raw) m.inputGroups
  let outData ← pyMapList (outputGroupBuild outputData) m.outputGroups
  pure ⟨inData, outData⟩

/-- The body of `run_sequence` as it would execute were the two `build`
call bindings successful — the computation the code is written to perform,
to be compared with the faithful `runSequence`: identical except that the
binding steps of `inputGroupBuild`/`outputGroupBuild` are absent. -/
def runSequenceAfterBinding (m : SequencerModel) (clockRate : ℚ)
    (outputData : Dict (List ℚ)) (inputSamples : Dict Int) (readoutDelays : Dict Int)
    (softStart : Dict Bool) (raw : String → Nat → ℚ) : Py RunResult := do
  let rd ← parseSequenceParams m outputData inputSamples readoutDelays
  softStartPhase m softStart outputData
  let inData ← pyMapList
    (fun g => do
      let dd ← aiVoltageReadoutData g.2 inputSamples rd raw
      pure (g.1, dd))
    m.inputGroups
  let outData ← pyMapList
    (fun g => do
      let dd ← aoVoltageBuildData g.2 outputData
      pure (g.1, dd))
    m.outputGroups
  pure ⟨inData, outData⟩

/-- `get_data()` with default arguments (lines 205-238, `names = None`,
`inputs = outputs = True`): the union over every input group's data, then
every output group's data. -/
def getDataAll (r : RunResult) : Dict (List ℚ) :=
  let d := r.inputData.foldl (fun acc g => Dict.unionUpdate acc g.2) []
  r.outputData.foldl (fun acc g => Dict.unionUpdate acc g.2) d

/-- The registered input source names, in registration order. -/
def allInputSources (m : SequencerModel) : List String :=
  (m.inputGroups.map Prod.snd).flatten

/-- The registered output source names, in registration order. -/
def allOutputSources (m : SequencerModel) : List String :=
  (m.outputGroups.map (fun g => g.2.map (fun ch => ch.1))).flatten

theorem Dict.find?_setItem {α : Type} (d : Dict α) (k k' : String) (v : α) :
    Dict.find? (Dict.setItem d k v) k' = if k = k' then some v else Dict.find? d k' := by
  induction d with
  | nil => rfl
  | cons a rest ih =>
    obtain ⟨ka, va⟩ := a
    by_cases hak : ka = k
    · subst hak
      rw [Dict.setItem_cons_eq]
      by_cases hkk : ka = k'
      · subst hkk
        simp [Dict.find?]
      · simp [Dict.find?, hkk]
    · rw [Dict.setItem_cons_ne _ _ _ _ _ hak]
      by_cases hkk : ka = k'
      · subst hkk
        have hkne : k ≠ ka := fun h => hak h.symm
        simp [Dict.find?, hkne]
      · simp [Dict.find?, hkk, ih]

theorem Dict.setItem_append_of_not_mem {α : Type} (d : Dict α) (k : String) (v : α)
    (h : k ∉ Dict.keysList d) : Dict.setItem d k v = d ++ [(k, v)] := by
  induction d with
  | nil => rfl
  | cons a rest ih =>
    obtain ⟨ka, va⟩ := a
    simp only [Dict.keysList, List.map_cons, List.mem_cons] at h
    push_neg at h
    rw [Dict.setItem_cons_ne ka k va v rest (fun hh => h.1 hh.symm), ih h.2,
      List.cons_append]

theorem Dict.find?_some_mem_keys {α : Type} (d : Dict α) (k : String) (v : α)
    (h : Dict.find? d k = some v) : k ∈ Dict.keysList d := by
  induction d with
  | nil => cases h
  | cons a rest ih =>
    obtain ⟨ka, va⟩ := a
    simp only [Dict.find?] at h
    by_cases hak : ka = k
    · subst hak
      simp [Dict.keysList]
    · rw [if_neg hak] at h
      simp only [Dict.keysList, List.map_cons, List.mem_cons]
      exact .inr (ih h)

theorem Dict.find?_append_left {α : Type} (d e : Dict α) (k : String) (v : α)
    (h : Dict.find? d k = some v) : Dict.find? (d ++ e) k = some v := by
  induction d with
  | nil => cases h
  | cons a rest ih =>
    obtain ⟨ka, va⟩ := a
    simp only [Dict.find?] at h
    by_cases hak : ka = k
    · rw [List.cons_append]
      simp only [Dict.find?, if_pos hak]
      rwa [if_pos hak] at h
    · rw [List.cons_append]
      simp only [Dict.find?, if_neg hak]
      rw [if_neg hak] at h
      exact ih h

theorem Dict.find?_append_right {α : Type} (d e : Dict α) (k : String)
    (h : k ∉ Dict.keysList d) : Dict.find? (d ++ e) k = Dict.find? e k := by
  induction d with
  | nil => rfl
  | cons a rest ih =>
    obtain ⟨ka, va⟩ := a
    simp only [Dict.keysList, List.map_cons, List.mem_cons] at h
    push_neg at h
    have hka : ¬ (ka = k) := fun hh => h.1 hh.symm
    rw [List.cons_append]
    simp only [Dict.find?, if_neg hka]
    exact ih h.2

theorem Dict.keysList_append {α : Type} (d e : Dict α) :
    Dict.keysList (d ++ e) = Dict.keysList d ++ Dict.keysList e :=
  List.map_append _ d e

theorem Dict.unionUpdate_eq_append {α : Type} (d e : Dict α)
    (h : (Dict.keysList d ++ Dict.keysList e).Nodup) :
    Dict.unionUpdate d e = d ++ e := by
  induction e generalizing d with
  | nil => simp [Dict.unionUpdate]
  | cons a rest ih =>
    obtain ⟨ka, va⟩ := a
    have hstep : Dict.unionUpdate d ((ka, va) :: rest) =
        Dict.unionUpdate (Dict.setItem d ka va) rest := rfl
    have hknotin : ka ∉ Dict.keysList d := by
      simp only [Dict.keysList, List.map_cons] at h
      rcases (List.nodup_append.mp h) with ⟨-, -, hdisj⟩
      intro hka
      exact hdisj hka (List.mem_cons_self _ _)
    have hset : Dict.setItem d ka va = d ++ [(ka, va)] :=
      Dict.setItem_append_of_not_mem d ka va hknotin
    have hnd' : (Dict.keysList (d ++ [(ka, va)]) ++ Dict.keysList rest).Nodup := by
      rw [Dict.keysList_append]
      have : Dict.keysList d ++ Dict.keysList ((ka, va) :: rest) =
          Dict.keysList d ++ Dict.keysList [(ka, va)] ++ Dict.keysList rest := by
        simp [Dict.keysList]
      rw [this] at h
      exact h
    rw [hstep, hset, ih _ hnd', List.append_assoc]
    rfl

theorem foldUnion_eq_append (gs : Dict (Dict (List ℚ))) :
    ∀ (acc : Dict (List ℚ)),
      (Dict.keysList acc ++ ((gs.map Prod.snd).map Dict.keysList).flatten).Nodup →
      gs.foldl (fun acc g => Dict.unionUpdate acc g.2) acc =
        acc ++ (gs.map Prod.snd).flatten := by
  induction gs with
  | nil =>
    intro acc _
    simp
  | cons g rest ih =>
    intro acc h
    have hassoc : Dict.keysList acc ++
        ((((g :: rest).map Prod.snd).map Dict.keysList).flatten) =
        (Dict.keysList acc ++ Dict.keysList g.2) ++
          ((rest.map Prod.snd).map Dict.keysList).flatten := by
      simp [List.append_assoc]
    rw [hassoc] at h
    have hsub : (Dict.keysList acc ++ Dict.keysList g.2).Nodup :=
      (List.sublist_append_left _ _).nodup h
    have hunion : Dict.unionUpdate acc g.2 = acc ++ g.2 :=
      Dict.unionUpdate_eq_append _ _ hsub
    have hih := ih (acc ++ g.2) (by rw [Dict.keysList_append]; exact h)
    rw [List.foldl_cons, hunion, hih, List.map_cons, List.flatten_cons,
      List.append_assoc]

theorem Dict.find?_flatten {α : Type} (ds : List (Dict α)) (k : String) (v : α)
    (d : Dict α) (hd : d ∈ ds) (hv : Dict.find? d k = some v)
    (hnd : ((ds.map Dict.keysList).flatten).Nodup) :
    Dict.find? ds.flatten k = some v := by
  induction ds with
  | nil => cases hd
  | cons d0 rest ih =>
    rw [List.flatten_cons]
    cases hd with
    | head => exact Dict.find?_append_left _ _ _ _ hv
    | tail _ hd' =>
      have hmemrest : k ∈ ((rest.map Dict.keysList).flatten) := by
        rw [List.mem_flatten]
        exact ⟨Dict.keysList d, List.mem_map_of_mem _ hd', Dict.find?_some_mem_keys _ _ _ hv⟩
      simp only [List.map_cons, List.flatten_cons] at hnd
      rcases List.nodup_append.mp hnd with ⟨-, hndrest, hdisj⟩
      have hknotin : k ∉ Dict.keysList d0 := fun hk => hdisj hk hmemrest
      rw [Dict.find?_append_right _ _ _ hknotin]
      exact ih hd' hndrest

theorem validateGroupOutputData_ok (channels : List (String × ℚ × ℚ))
    (outputData : Dict (List ℚ))
    (h : ∀ ch ∈ channels, ∃ d, Dict.find? outputData ch.1 = some d ∧
      (∀ x ∈ d, ch.2.1 ≤ x ∧ x ≤ ch.2.2)) :
    validateGroupOutputData channels outputData = .ok () := by
  apply pyForEach_ok
  intro ch hch
  obtain ⟨d, hfind, hrange⟩ := h ch hch
  simp only [hfind, aoValidate_ok ch.2.1 ch.2.2 d hrange]

theorem dedup_length_le_one {l : List Nat} (c : Nat) (h : ∀ x ∈ l, x = c) :
    l.dedup.length ≤ 1 := by
  induction l with
  | nil => simp
  | cons a rest ih =>
    by_cases hm : a ∈ rest
    · rw [List.dedup_cons_of_mem hm]
      exact ih (fun x hx => h x (List.mem_cons_of_mem a hx))
    · have hrest : rest = [] := by
        cases rest with
        | nil => rfl
        | cons b rb =>
          exfalso
          apply hm
          have hb : b = c := h b (by simp)
          have ha : a = c := h a (by simp)
          rw [ha, ← hb]
          exact List.mem_cons_self b rb
      subst hrest
      simp

theorem checkGroupShapes_ok (channels : List (String × ℚ × ℚ)) (outputData : Dict (List ℚ))
    (hne : channels ≠ [])
    (heq : ∀ ch₁ ∈ channels, ∀ ch₂ ∈ channels,
      ((Dict.find? outputData ch₁.1).getD []).length =
        ((Dict.find? outputData ch₂.1).getD []).length) :
    checkGroupShapes channels outputData = .ok () := by
  cases channels with
  | nil => exact absurd rfl hne
  | cons c0 rest =>
    have hall : ∀ x ∈ (c0 :: rest).map
        (fun ch => ((Dict.find? outputData ch.1).getD []).length),
        x = ((Dict.find? outputData c0.1).getD []).length := by
      intro x hx
      obtain ⟨ch, hch, hcheq⟩ := List.mem_map.mp hx
      rw [← hcheq]
      exact heq ch hch c0 (List.mem_cons_self c0 rest)
    have hded := dedup_length_le_one _ hall
    simp only [checkGroupShapes]
    rw [if_neg (by omega)]
    simp [List.map_cons]

theorem parseInputGroup_ok (inputSamples : Dict Int) :
    ∀ (sources : List String) (rd : Dict Int),
      (∀ s ∈ sources, ∃ n, Dict.find? inputSamples s = some n ∧ 0 ≤ n) →
      (∀ k v, Dict.find? rd k = some v → 0 ≤ v) →
      ∃ rd', parseInputGroup sources inputSamples rd = .ok rd' ∧
        (∀ k v, Dict.find? rd' k = some v → 0 ≤ v) ∧
        (∀ k v, Dict.find? rd k = some v → Dict.find? rd' k = some v) ∧
        (∀ s ∈ sources, ∃ dv, Dict.find? rd' s = some dv ∧ 0 ≤ dv) := by
  intro sources
  induction sources with
  | nil =>
    intro rd _ hinv
    exact ⟨rd, rfl, hinv, fun _ _ h => h, fun s hs => absurd hs (List.not_mem_nil s)⟩
  | cons s rest ih =>
    intro rd hsrc hinv
    obtain ⟨n, hn, hn0⟩ := hsrc s (List.mem_cons_self s rest)
    have hnneg : ¬ (n < 0) := not_lt.mpr hn0
    cases hrd : Dict.find? rd s with
    | none =>
      have hstep : parseInputGroup (s :: rest) inputSamples rd =
          parseInputGroup rest inputSamples (Dict.setItem rd s 0) := by
        simp only [parseInputGroup, pyFoldList, hn, hrd, if_neg hnneg]
      have hinv₁ : ∀ k v, Dict.find? (Dict.setItem rd s 0) k = some v → 0 ≤ v := by
        intro k v h
        rw [Dict.find?_setItem] at h
        by_cases hks : s = k
        · rw [if_pos hks] at h
          cases h
          norm_num
        · rw [if_neg hks] at h
          exact hinv k v h
      have hmono₁ : ∀ k v, Dict.find? rd k = some v →
          Dict.find? (Dict.setItem rd s 0) k = some v := by
        intro k v h
        rw [Dict.find?_setItem]
        by_cases hks : s = k
        · subst hks
          rw [hrd] at h
          cases h
        · rw [if_neg hks]
          exact h
      obtain ⟨rd', hrd', hinv', hmono', hpost'⟩ :=
        ih (Dict.setItem rd s 0) (fun s' hs' => hsrc s' (List.mem_cons_of_mem s hs')) hinv₁
      refine ⟨rd', by rw [hstep]; exact hrd', hinv',
        fun k v h => hmono' k v (hmono₁ k v h), ?_⟩
      intro s' hs'
      cases hs' with
      | head =>
        refine ⟨0, ?_, le_refl 0⟩
        apply hmono' s 0
        rw [Dict.find?_setItem, if_pos rfl]
      | tail _ hs'' => exact hpost' s' hs''
    | some dv =>
      have hdv0 : 0 ≤ dv := hinv s dv hrd
      have hdvneg : ¬ (dv < 0) := not_lt.mpr hdv0
      have hstep : parseInputGroup (s :: rest) inputSamples rd =
          parseInputGroup rest inputSamples rd := by
        simp only [parseInputGroup, pyFoldList, hn, hrd, if_neg hnneg, if_neg hdvneg]
      obtain ⟨rd', hrd', hinv', hmono', hpost'⟩ :=
        ih rd (fun s' hs' => hsrc s' (List.mem_cons_of_mem s hs')) hinv
      refine ⟨rd', by rw [hstep]; exact hrd', hinv', hmono', ?_⟩
      intro s' hs'
      cases hs' with
      | head => exact ⟨dv, hmono' s dv hrd, hdv0⟩
      | tail _ hs'' => exact hpost' s' hs''

theorem parseAllInputGroups_ok (inputSamples : Dict Int) :
    ∀ (groups : Dict (List String)) (rd : Dict Int),
      (∀ g ∈ groups, ∀ s ∈ g.2, ∃ n, Dict.find? inputSamples s = some n ∧ 0 ≤ n) →
      (∀ k v, Dict.find? rd k = some v → 0 ≤ v) →
      ∃ rd', pyFoldList (fun rd g => parseInputGroup g.2 inputSamples rd) rd groups = .ok rd' ∧
        (∀ k v, Dict.find? rd' k = some v → 0 ≤ v) ∧
        (∀ k v, Dict.find? rd k = some v → Dict.find? rd' k = some v) ∧
        (∀ g ∈ groups, ∀ s ∈ g.2, ∃ dv, Dict.find? rd' s = some dv ∧ 0 ≤ dv) := by
  intro groups
  induction groups with
  | nil =>
    intro rd _ hinv
    exact ⟨rd, rfl, hinv, fun _ _ h => h, fun g hg => absurd hg (List.not_mem_nil g)⟩
  | cons g rest ih =>
    intro rd hsrc hinv
    obtain ⟨rd₁, hrd₁, hinv₁, hmono₁, hpost₁⟩ :=
      parseInputGroup_ok inputSamples g.2 rd (hsrc g (List.mem_cons_self g rest)) hinv
    obtain ⟨rd', hrd', hinv', hmono', hpost'⟩ :=
      ih rd₁ (fun g' hg' => hsrc g' (List.mem_cons_of_mem g hg')) hinv₁
    refine ⟨rd', ?_, hinv', fun k v h => hmono' k v (hmono₁ k v h), ?_⟩
    · simp only [pyFoldList, hrd₁]
      exact hrd'
    · intro g' hg'
      cases hg' with
      | head =>
        intro s hs
        obtain ⟨dv, hdv, hdv0⟩ := hpost₁ s hs
        exact ⟨dv, hmono' s dv hdv, hdv0⟩
      | tail _ hg'' => exact hpost' g' hg''

theorem parseSequenceParams_ok (m : SequencerModel) (outputData : Dict (List ℚ))
    (inputSamples readoutDelays : Dict Int)
    (houtData : ∀ g ∈ m.outputGroups, ∀ ch ∈ g.2, ∃ d,
      Dict.find? outputData ch.1 = some d ∧ (∀ x ∈ d, ch.2.1 ≤ x ∧ x ≤ ch.2.2))
    (houtEq : ∀ g ∈ m.outputGroups, ∀ ch₁ ∈ g.2, ∀ ch₂ ∈ g.2,
      ((Dict.find? outputData ch₁.1).getD []).length =
        ((Dict.find? outputData ch₂.1).getD []).length)
    (houtNE : ∀ g ∈ m.outputGroups, g.2 ≠ [])
    (hinData : ∀ g ∈ m.inputGroups, ∀ s ∈ g.2, ∃ n,
      Dict.find? inputSamples s = some n ∧ 0 ≤ n)
    (hrdNonneg : ∀ k v, Dict.find? readoutDelays k = some v → 0 ≤ v) :
    ∃ rd', parseSequenceParams m outputData inputSamples readoutDelays = .ok rd' ∧
      (∀ k v, Dict.find? rd' k = some v → 0 ≤ v) ∧
      (∀ g ∈ m.inputGroups, ∀ s ∈ g.2, ∃ dv, Dict.find? rd' s = some dv ∧ 0 ≤ dv) := by
  have hfor : pyForEach
      (fun g => do
        validateGroupOutputData g.2 outputData
        checkGroupShapes g.2 outputData)
      m.outputGroups = .ok () := by
    apply pyForEach_ok
    intro g hg
    rw [validateGroupOutputData_ok g.2 outputData (houtData g hg), exceptBind_ok,
      checkGroupShapes_ok g.2 outputData (houtNE g hg) (houtEq g hg)]
  obtain ⟨rd', hrd', hinv', -, hpost'⟩ :=
    parseAllInputGroups_ok inputSamples m.inputGroups readoutDelays hinData hrdNonneg
  refine ⟨rd', ?_, hinv', hpost'⟩
  rw [parseSequenceParams, hfor, exceptBind_ok]
  exact hrd'

theorem map_fst_pairs {α β : Type} (key : α → String) (F : α → β) (l : List α) :
    List.map Prod.fst (l.map (fun a => (key a, F a))) = l.map key := by
  induction l <;> simp_all

/-- The data dictionary an AI-voltage group deposits, as an explicit value
(used to characterize `aiVoltageReadoutData` on the success path). -/
def aiDataDict (sources : List String) (inputSamples rd : Dict Int)
    (raw : String → Nat → ℚ) : Dict (List ℚ) :=
  let ns := fun s => ((Dict.find? inputSamples s).getD 0).toNat
  let ds := fun s => ((Dict.find? rd s).getD 0).toNat
  let nTask := listMaxNat (sources.map (fun s => ns s + ds s))
  sources.map (fun s =>
    (s, pySlice ((List.range nTask).map (raw s)) (ds s) (ds s + ns s)))

/-- The data dictionary an AO-voltage group deposits, as an explicit value. -/
def aoDataDict (channels : List (String × ℚ × ℚ)) (outputData : Dict (List ℚ)) :
    Dict (List ℚ) :=
  channels.map (fun ch => (ch.1, (Dict.find? outputData ch.1).getD []))

theorem aiVoltageReadoutData_ok (sources : List String) (inputSamples rd : Dict Int)
    (raw : String → Nat → ℚ)
    (hin : ∀ s ∈ sources, ∃ n, Dict.find? inputSamples s = some n ∧ 0 ≤ n)
    (hrd : ∀ s ∈ sources, ∃ dv, Dict.find? rd s = some dv ∧ 0 ≤ dv) :
    aiVoltageReadoutData sources inputSamples rd raw =
      .ok (aiDataDict sources inputSamples rd raw) := by
  have hmap : pyMapList
      (fun s => do
        let n ← Dict.getItem inputSamples s
        let d ← Dict.getItem rd s
        pure (s, n.toNat, d.toNat))
      sources =
      .ok (sources.map (fun s => (s, ((Dict.find? inputSamples s).getD 0).toNat,
        ((Dict.find? rd s).getD 0).toNat))) := by
    apply pyMapList_ok
    intro s hs
    obtain ⟨n, hn, -⟩ := hin s hs
    obtain ⟨dv, hdv, -⟩ := hrd s hs
    rw [Dict.getItem_eq_ok _ _ _ hn, exceptBind_ok, Dict.getItem_eq_ok _ _ _ hdv,
      exceptBind_ok, hn, hdv]
    rfl
  rw [aiVoltageReadoutData, hmap, exceptBind_ok]
  simp only [aiDataDict, List.map_map]
  rfl

theorem aiDataDict_spec (sources : List String) (inputSamples rd : Dict Int)
    (raw : String → Nat → ℚ)
    (hin : ∀ s ∈ sources, ∃ n, Dict.find? inputSamples s = some n ∧ 0 ≤ n) :
    Dict.keysList (aiDataDict sources inputSamples rd raw) = sources ∧
    (∀ s ∈ sources, ∃ arr, Dict.find? (aiDataDict sources inputSamples rd raw) s = some arr ∧
      ∃ n, Dict.find? inputSamples s = some n ∧ arr.length = n.toNat) := by
  set ns := fun s => ((Dict.find? inputSamples s).getD 0).toNat with hns
  set ds := fun s => ((Dict.find? rd s).getD 0).toNat with hds
  set nTask := listMaxNat (sources.map (fun s => ns s + ds s)) with hnTask
  constructor
  · have h := map_fst_pairs (fun s => s)
      (fun s => pySlice ((List.range nTask).map (raw s)) (ds s) (ds s + ns s)) sources
    simp only [aiDataDict, Dict.keysList]
    rw [h]
    simp
  · intro s hs
    obtain ⟨n, hn, hn0⟩ := hin s hs
    have hfind : Dict.find? (aiDataDict sources inputSamples rd raw) s =
        some (pySlice ((List.range nTask).map (raw s)) (ds s) (ds s + ns s)) := by
      simp only [aiDataDict]
      exact Dict.find?_mapSelf _ sources s hs
    refine ⟨_, hfind, n, hn, ?_⟩
    have hcover : ns s + ds s ≤ nTask := by
      apply listMaxNat_le_of_mem
      exact List.mem_map_of_mem _ hs
    have hlen : ((List.range nTask).map (raw s)).length = nTask := rangeMap_length _ _
    rw [pySlice_length _ _ _ (by omega) (by omega)]
    have : ns s = n.toNat := by rw [hns]; simp [hn]
    omega

theorem aoVoltageBuildData_ok (channels : List (String × ℚ × ℚ))
    (outputData : Dict (List ℚ))
    (hdata : ∀ ch ∈ channels, ∃ d, Dict.find? outputData ch.1 = some d ∧
      (∀ x ∈ d, ch.2.1 ≤ x ∧ x ≤ ch.2.2)) :
    aoVoltageBuildData channels outputData = .ok (aoDataDict channels outputData) := by
  have hfor : pyForEach
      (fun ch => do
        let d ← Dict.getItem outputData ch.1
        aoValidate ch.2.1 ch.2.2 d)
      channels = .ok () := by
    apply pyForEach_ok
    intro ch hch
    obtain ⟨d, hfind, hrange⟩ := hdata ch hch
    rw [Dict.getItem_eq_ok _ _ _ hfind, exceptBind_ok, aoValidate_ok _ _ _ hrange]
  rw [aoVoltageBuildData, hfor, exceptBind_ok]
  rfl

theorem aoDataDict_spec (channels : List (String × ℚ × ℚ)) (outputData : Dict (List ℚ))
    (hdata : ∀ ch ∈ channels, ∃ d, Dict.find? outputData ch.1 = some d ∧
      (∀ x ∈ d, ch.2.1 ≤ x ∧ x ≤ ch.2.2)) :
    Dict.keysList (aoDataDict channels outputData) = channels.map (fun ch => ch.1) ∧
    (∀ ch ∈ channels, ∃ arr, Dict.find? (aoDataDict channels outputData) ch.1 = some arr ∧
      Dict.find? outputData ch.1 = some arr) := by
  constructor
  · exact map_fst_pairs (fun ch => ch.1) (fun ch => (Dict.find? outputData ch.1).getD [])
      channels
  · intro ch hch
    obtain ⟨d, hfind, -⟩ := hdata ch hch
    have hform : aoDataDict channels outputData =
        (channels.map (fun ch => ch.1)).map
          (fun s => (s, (Dict.find? outputData s).getD [])) := by
      rw [List.map_map]
      rfl
    refine ⟨(Dict.find? outputData ch.1).getD [], ?_, by rw [hfind]; simp⟩
    rw [hform]
    exact Dict.find?_mapSelf _ _ _ (List.mem_map_of_mem _ hch)

theorem Dict.keysList_flatten {α : Type} (ds : List (Dict α)) :
    Dict.keysList ds.flatten = (ds.map Dict.keysList).flatten := by
  simp only [Dict.keysList, List.map_flatten]
  rfl

/-- C1 (code bug): for every valid sequence request — every output group's
member channels given data within the channel bounds with equal lengths
inside each group, every input channel given a non-negative `input_samples`
entry, all supplied readout delays non-negative — on a sequencer with
nonempty groups and globally distinct source names, `run_sequence` (with
the default empty `soft_start`) does not complete: it raises `TypeError`,
because both group-build call sites (nidaqsequencer.py lines 141-146 and
153-157) omit the required `clock_terminal` parameter of every group's
`build` method.  The body as it would execute after a successful binding
(`runSequenceAfterBinding`) completes, and `get_data()` on its result
returns a mapping with exactly one entry per registered input and output
channel, in which each input entry has length `input_samples[name]` (the
post-trim length) and each output entry is exactly the data written on that
channel — the behaviour the claim describes. -/
theorem runSequence_missing_clock_terminal (m : SequencerModel) (clockRate : ℚ)
    (outputData : Dict (List ℚ)) (inputSamples readoutDelays : Dict Int)
    (raw : String → Nat → ℚ)
    (houtData : ∀ g ∈ m.outputGroups, ∀ ch ∈ g.2, ∃ d,
      Dict.find? outputData ch.1 = some d ∧ (∀ x ∈ d, ch.2.1 ≤ x ∧ x ≤ ch.2.2))
    (houtEq : ∀ g ∈ m.outputGroups, ∀ ch₁ ∈ g.2, ∀ ch₂ ∈ g.2,
      ((Dict.find? outputData ch₁.1).getD []).length =
        ((Dict.find? outputData ch₂.1).getD []).length)
    (houtNE : ∀ g ∈ m.outputGroups, g.2 ≠ [])
    (hinData : ∀ g ∈ m.inputGroups, ∀ s ∈ g.2, ∃ n,
      Dict.find? inputSamples s = some n ∧ 0 ≤ n)
    (hrdNonneg : ∀ k v, Dict.find? readoutDelays k = some v → 0 ≤ v)
    (hnodup : (allInputSources m ++ allOutputSources m).Nodup)
    (hne : m.inputGroups ≠ [] ∨ m.outputGroups ≠ []) :
    runSequence m clockRate outputData inputSamples readoutDelays [] raw =
      .error PyErr.typeError ∧
    ∃ r, runSequenceAfterBinding m clockRate outputData inputSamples readoutDelays [] raw
        = .ok r ∧
      Dict.keysList (getDataAll r) = allInputSources m ++ allOutputSources m ∧
      (∀ g ∈ m.inputGroups, ∀ s ∈ g.2, ∃ arr,
        Dict.find? (getDataAll r) s = some arr ∧
        ∃ n, Dict.find? inputSamples s = some n ∧ arr.length = n.toNat) ∧
      (∀ g ∈ m.outputGroups, ∀ ch ∈ g.2, ∃ arr,
        Dict.find? (getDataAll r) ch.1 = some arr ∧
        Dict.find? outputData ch.1 = some arr) := by
  obtain ⟨rd', hparse, hrdinv, hrdpost⟩ := parseSequenceParams_ok m outputData
    inputSamples readoutDelays houtData houtEq houtNE hinData hrdNonneg
  constructor
  · rw [runSequence, hparse, exceptBind_ok,
      show softStartPhase m [] outputData = .ok () from rfl, exceptBind_ok]
    cases hin : m.inputGroups with
    | cons g rest =>
      rw [pyMapList_head_err (inputGroupBuild inputSamples rd' raw) g rest
        PyErr.typeError rfl, exceptBind_err]
    | nil =>
      have hno : m.outputGroups ≠ [] := by
        rcases hne with h | h
        · exact absurd hin h
        · exact h
      rw [show pyMapList (inputGroupBuild inputSamples rd' raw) [] =
          (.ok [] : Py (List (String × Dict (List ℚ)))) from rfl, exceptBind_ok]
      cases hout : m.outputGroups with
      | nil => exact absurd hout hno
      | cons g rest =>
        rw [pyMapList_head_err (outputGroupBuild outputData) g rest
          PyErr.typeError rfl, exceptBind_err]
  set inDicts := m.inputGroups.map
    (fun g => (g.1, aiDataDict g.2 inputSamples rd' raw)) with hinDicts
  set outDicts := m.outputGroups.map
    (fun g => (g.1, aoDataDict g.2 outputData)) with houtDicts
  have hinmap : pyMapList
      (fun g => do
        let dd ← aiVoltageReadoutData g.2 inputSamples rd' raw
        pure (g.1, dd))
      m.inputGroups = .ok inDicts := by
    apply pyMapList_ok
    intro g hg
    rw [aiVoltageReadoutData_ok g.2 inputSamples rd' raw (hinData g hg) (hrdpost g hg),
      exceptBind_ok]
    rfl
  have houtmap : pyMapList
      (fun g => do
        let dd ← aoVoltageBuildData g.2 outputData
        pure (g.1, dd))
      m.outputGroups = .ok outDicts := by
    apply pyMapList_ok
    intro g hg
    rw [aoVoltageBuildData_ok g.2 outputData (houtData g hg), exceptBind_ok]
    rfl
  have hrun : runSequenceAfterBinding m clockRate outputData inputSamples readoutDelays
      [] raw = .ok ⟨inDicts, outDicts⟩ := by
    rw [runSequenceAfterBinding, hparse, exceptBind_ok,
      show softStartPhase m [] outputData = .ok () from rfl, exceptBind_ok,
      hinmap, exceptBind_ok, houtmap, exceptBind_ok]
    rfl
  -- key structure of the two sides of the union
  have hinSnd : inDicts.map Prod.snd =
      m.inputGroups.map (fun g => aiDataDict g.2 inputSamples rd' raw) := by
    rw [hinDicts, List.map_map]
    rfl
  have houtSnd : outDicts.map Prod.snd =
      m.outputGroups.map (fun g => aoDataDict g.2 outputData) := by
    rw [houtDicts, List.map_map]
    rfl
  have hinKeys : ((inDicts.map Prod.snd).map Dict.keysList).flatten = allInputSources m := by
    rw [hinSnd, List.map_map, allInputSources]
    congr 1
    apply List.map_congr_left
    intro g hg
    exact (aiDataDict_spec g.2 inputSamples rd' raw (hinData g hg)).1
  have houtKeys : ((outDicts.map Prod.snd).map Dict.keysList).flatten =
      allOutputSources m := by
    rw [houtSnd, List.map_map, allOutputSources]
    congr 1
    apply List.map_congr_left
    intro g hg
    exact (aoDataDict_spec g.2 outputData (houtData g hg)).1
  have hinNodup : (((inDicts.map Prod.snd).map Dict.keysList).flatten).Nodup := by
    rw [hinKeys]
    exact (List.nodup_append.mp hnodup).1
  have houtNodup : (((outDicts.map Prod.snd).map Dict.keysList).flatten).Nodup := by
    rw [houtKeys]
    exact (List.nodup_append.mp hnodup).2.1
  set inFlat := (inDicts.map Prod.snd).flatten with hinFlat
  set outFlat := (outDicts.map Prod.snd).flatten with houtFlat
  have hfold1 : inDicts.foldl (fun acc g => Dict.unionUpdate acc g.2) [] = inFlat := by
    rw [foldUnion_eq_append inDicts [] (by
      show (Dict.keysList ([] : Dict (List ℚ)) ++ _).Nodup
      rw [show Dict.keysList ([] : Dict (List ℚ)) = [] from rfl, List.nil_append]
      exact hinNodup)]
    rfl
  have hfold2 : outDicts.foldl (fun acc g => Dict.unionUpdate acc g.2) inFlat =
      inFlat ++ outFlat := by
    apply foldUnion_eq_append outDicts inFlat
    rw [hinFlat, Dict.keysList_flatten, hinKeys, houtKeys]
    exact hnodup
  have hget : getDataAll ⟨inDicts, outDicts⟩ = inFlat ++ outFlat := by
    rw [getDataAll]
    simp only [hfold1, hfold2]
  refine ⟨⟨inDicts, outDicts⟩, hrun, ?_, ?_, ?_⟩
  · rw [hget, Dict.keysList_append, hinFlat, houtFlat, Dict.keysList_flatten,
      Dict.keysList_flatten, hinKeys, houtKeys]
  · intro g hg s hs
    obtain ⟨arr, hfind, n, hn, hlen⟩ :=
      (aiDataDict_spec g.2 inputSamples rd' raw (hinData g hg)).2 s hs
    refine ⟨arr, ?_, n, hn, hlen⟩
    rw [hget]
    apply Dict.find?_append_left
    apply Dict.find?_flatten _ _ _ (aiDataDict g.2 inputSamples rd' raw) _ hfind hinNodup
    rw [hinSnd]
    exact List.mem_map_of_mem _ hg
  · intro g hg ch hch
    obtain ⟨arr, hfind, hecho⟩ := (aoDataDict_spec g.2 outputData (houtData g hg)).2 ch hch
    refine ⟨arr, ?_, hecho⟩
    rw [hget]
    have hmemout : ch.1 ∈ allOutputSources m := by
      rw [allOutputSources, List.mem_flatten]
      exact ⟨g.2.map (fun c => c.1), List.mem_map_of_mem _ hg,
        List.mem_map_of_mem _ hch⟩
    have hnotin : ch.1 ∉ Dict.keysList inFlat := by
      rw [hinFlat, Dict.keysList_flatten, hinKeys]
      rcases List.nodup_append.mp hnodup with ⟨-, -, hdisj⟩
      intro hin
      exact hdisj hin hmemout
    rw [Dict.find?_append_right _ _ _ hnotin]
    apply Dict.find?_flatten _ _ _ (aoDataDict g.2 outputData) _ hfind houtNodup
    rw [houtSnd]
    exact List.mem_map_of_mem _ hg

/-- Witness for `runSequence_missing_clock_terminal`: one counter-input
group and one analog-output group with valid in-bounds data; the call
raises `TypeError` while the post-binding body completes with the claimed
data. -/
theorem runSequence_missing_clock_terminal_witness :
    runSequence ⟨[("ig", ["cnt"])], [("og", [("ao", (-5 : ℚ), (5 : ℚ))])]⟩ 1000
        [("ao", [(1 : ℚ), 2])] [("cnt", (3 : Int))] [] [] (fun _ i => (i : ℚ)) =
      .error PyErr.typeError ∧
    ∃ r, runSequenceAfterBinding
        ⟨[("ig", ["cnt"])], [("og", [("ao", (-5 : ℚ), (5 : ℚ))])]⟩ 1000
        [("ao", [(1 : ℚ), 2])] [("cnt", (3 : Int))] [] [] (fun _ i => (i : ℚ)) = .ok r ∧
      Dict.keysList (getDataAll r) =
        allInputSources ⟨[("ig", ["cnt"])], [("og", [("ao", (-5 : ℚ), (5 : ℚ))])]⟩ ++
          allOutputSources ⟨[("ig", ["cnt"])], [("og", [("ao", (-5 : ℚ), (5 : ℚ))])]⟩ ∧
      (∀ g ∈ ([("ig", ["cnt"])] : Dict (List String)), ∀ s ∈ g.2, ∃ arr,
        Dict.find? (getDataAll r) s = some arr ∧
        ∃ n, Dict.find? [("cnt", (3 : Int))] s = some n ∧ arr.length = n.toNat) ∧
      (∀ g ∈ ([("og", [("ao", (-5 : ℚ), (5 : ℚ))])] :
          Dict (List (String × ℚ × ℚ))), ∀ ch ∈ g.2, ∃ arr,
        Dict.find? (getDataAll r) ch.1 = some arr ∧
        Dict.find? [("ao", [(1 : ℚ), 2])] ch.1 = some arr) :=
  runSequence_missing_clock_terminal
    ⟨[("ig", ["cnt"])], [("og", [("ao", (-5 : ℚ), (5 : ℚ))])]⟩
    1000 [("ao", [(1 : ℚ), 2])] [("cnt", (3 : Int))] [] (fun _ i => (i : ℚ))
    (by
      intro g hg ch hch
      rw [List.mem_singleton] at hg
      subst hg
      rw [List.mem_singleton] at hch
      subst hch
      refine ⟨[1, 2], rfl, ?_⟩
      intro x hx
      rcases List.mem_cons.mp hx with h | h
      · subst h
        constructor <;> norm_num
      · rw [List.mem_singleton] at h
        subst h
        constructor <;> norm_num)
    (by
      intro g hg ch₁ h1 ch₂ h2
      rw [List.mem_singleton] at hg
      subst hg
      rw [List.mem_singleton] at h1 h2
      subst h1
      subst h2
      rfl)
    (by
      intro g hg
      rw [List.mem_singleton] at hg
      subst hg
      simp)
    (by
      intro g hg s hs
      rw [List.mem_singleton] at hg
      subst hg
      rw [List.mem_singleton] at hs
      subst hs
      exact ⟨3, rfl, by norm_num⟩)
    (by
      intro k v h
      cases h)
    (by decide)
    (Or.inl (by decide))

end QdlUtils
